import Mathlib

/-!
Verification development for the `GraphSearch` grid planner of this repository
(Dijkstra-style search over an occupancy grid, `particle_filter_quiz.ipynb`).

Modelling conventions (shallow embedding of the Python source):
* Python floats are modelled as exact rationals (`ℚ`); the move costs `1` and
  `math.sqrt(2)` are modelled exactly in the ring `Zsqrtd 2` (numbers of the
  form `a + b * sqrt 2` with integer `a`, `b`), whose linear order agrees with
  the real order.
* Python `round` is round-half-to-even (`pyround` below).
* Python dictionaries (`openset`, `closedset`) are insertion-ordered
  association lists: insertion of a fresh key appends, assignment to an
  existing key updates in place, `min(d, key=...)` returns the earliest
  inserted key among those of minimal key value.
* Raised Python exceptions (`IndexError` from `obmap[i][j]`, `ValueError` from
  `min` over an empty dict, `KeyError` from `closedset[pind]`) are modelled as
  `Except PlanExc` values; the unbounded `while 1` loop is modelled with fuel
  (`none` = fuel exhausted).
-/

namespace RSS

instance : Zsqrtd.Nonsquare 2 :=
  ⟨fun n h => by
    rcases n with _ | _ | n
    · simp at h
    · simp at h
    · have h4 : 2 * 2 ≤ (n + 1 + 1) * (n + 1 + 1) := Nat.mul_le_mul (by omega) (by omega)
      omega⟩

/-- Exact cost values `a + b * sqrt 2`: the planner's move costs `1` and
`math.sqrt(2)` and their sums, modelled exactly. -/
abbrev Cost : Type := Zsqrtd (2 : ℕ)

/-- The cost `sqrt 2` of a diagonal move. -/
def sqrt2 : Cost := Zsqrtd.sqrtd

instance : Repr Cost := ⟨fun a _ => repr (a.re, a.im)⟩

/-- Python `round`: round half to even (used by the source for `round(...)`). -/
def pyround (q : ℚ) : ℤ :=
  if q - ⌊q⌋ < 1 / 2 then ⌊q⌋
  else if 1 / 2 < q - ⌊q⌋ then ⌊q⌋ + 1
  else if 2 ∣ ⌊q⌋ then ⌊q⌋ else ⌊q⌋ + 1

/-- Python `min` over a non-empty list of rationals (junk value `0` on `[]`;
the source only applies it to non-empty obstacle lists). -/
def pymin : List ℚ → ℚ
  | [] => 0
  | x :: xs => xs.foldl min x

/-- Python `max` over a non-empty list of rationals (junk value `0` on `[]`). -/
def pymax : List ℚ → ℚ
  | [] => 0
  | x :: xs => xs.foldl max x

/-- Python list indexing `l[i]`, including negative-index semantics:
`some` on success, `none` models a raised `IndexError`. -/
def pyIndex {α : Type} (l : List α) (i : ℤ) : Option α :=
  if 0 ≤ i then l.get? i.toNat
  else if 0 ≤ (l.length : ℤ) + i then l.get? ((l.length : ℤ) + i).toNat
  else none

/-- The planner's search node: grid indices, accumulated cost, parent id
(`self.Node` in the source). -/
structure Node where
  x : ℤ
  y : ℤ
  cost : Cost
  pind : ℤ
  deriving DecidableEq, Repr

/-- The `GraphSearch` object state after `__init__` ran
(`reso`, `rr`, the rounded bounding box, grid widths and the obstacle map). -/
structure GraphSearch where
  reso : ℚ
  rr : ℚ
  minx : ℤ
  miny : ℤ
  maxx : ℤ
  maxy : ℤ
  xwidth : ℤ
  ywidth : ℤ
  obmap : List (List Bool)
  deriving DecidableEq, Repr

/-- One cell of the occupancy test of `calc_obstacle_map`: the Python code
computes `d = math.sqrt((iox - x)**2 + (ioy - y)**2)` and marks the cell when
`d <= rr`; over the reals this holds iff `0 ≤ rr` and `d² ≤ rr²`. -/
def occTest (rr x y : ℚ) (p : ℚ × ℚ) : Bool :=
  decide (0 ≤ rr) && decide ((p.1 - x) ^ 2 + (p.2 - y) ^ 2 ≤ rr ^ 2)

/-- `GraphSearch.__init__` together with `calc_obstacle_map`: rounded bounding
box of the obstacles, rounded widths, and the brute-force occupancy scan. -/
def mkGraphSearch (ox oy : List ℚ) (reso rr : ℚ) : GraphSearch :=
  let minx := pyround (pymin ox)
  let miny := pyround (pymin oy)
  let maxx := pyround (pymax ox)
  let maxy := pyround (pymax oy)
  let xwidth := pyround (((maxx : ℚ) - (minx : ℚ)) / reso)
  let ywidth := pyround (((maxy : ℚ) - (miny : ℚ)) / reso)
  let obmap := (List.range xwidth.toNat).map fun (ix : ℕ) =>
    (List.range ywidth.toNat).map fun (iy : ℕ) =>
      (ox.zip oy).any (occTest rr ((ix : ℚ) * reso + (minx : ℚ)) ((iy : ℚ) * reso + (miny : ℚ)))
  ⟨reso, rr, minx, miny, maxx, maxy, xwidth, ywidth, obmap⟩

/-- `calc_position`: continuous coordinate of a grid index. -/
def GraphSearch.calc_position (gs : GraphSearch) (index : ℤ) (minp : ℤ) : ℚ :=
  (index : ℚ) * gs.reso + (minp : ℚ)

/-- `calc_xyindex`: grid index of a continuous coordinate. -/
def GraphSearch.calc_xyindex (gs : GraphSearch) (position : ℚ) (minp : ℤ) : ℤ :=
  pyround ((position - (minp : ℚ)) / gs.reso)

/-- `calc_index`: the linear id used as dictionary key. -/
def GraphSearch.calc_index (gs : GraphSearch) (node : Node) : ℤ :=
  (node.y - gs.miny) * gs.xwidth + (node.x - gs.minx)

/-- Exceptions the planner can raise, modelled as typed error values. -/
inductive PlanExc where
  | indexError
  | valueError
  | keyError
  deriving DecidableEq, Repr

instance {ε α : Type} [DecidableEq ε] [DecidableEq α] : DecidableEq (Except ε α) :=
  fun a b =>
  match a, b with
  | .error x, .error y =>
    if h : x = y then .isTrue (by rw [h]) else .isFalse (by simp [h])
  | .error _, .ok _ => .isFalse (by simp)
  | .ok _, .error _ => .isFalse (by simp)
  | .ok x, .ok y =>
    if h : x = y then .isTrue (by rw [h]) else .isFalse (by simp [h])

/-- `verify_node`: positional bound checks followed by the occupancy lookup
`self.obmap[node.x][node.y]` (which can raise `IndexError`). -/
def GraphSearch.verify_node (gs : GraphSearch) (node : Node) : Except PlanExc Bool :=
  let px := gs.calc_position node.x gs.minx
  let py := gs.calc_position node.y gs.miny
  if px < (gs.minx : ℚ) then .ok false
  else if py < (gs.miny : ℚ) then .ok false
  else if (gs.maxx : ℚ) ≤ px then .ok false
  else if (gs.maxy : ℚ) ≤ py then .ok false
  else
    match pyIndex gs.obmap node.x with
    | none => .error .indexError
    | some row =>
      match pyIndex row node.y with
      | none => .error .indexError
      | some occ => if occ then .ok false else .ok true

/-- `get_motion_model`: the eight motions `(dx, dy, cost)`. -/
def motionModel : List (ℤ × ℤ × Cost) :=
  [(1, 0, 1), (0, 1, 1), (-1, 0, 1), (0, -1, 1),
   (-1, -1, sqrt2), (-1, 1, sqrt2), (1, -1, sqrt2), (1, 1, sqrt2)]

/-- Lookup in an insertion-ordered association list (Python `d[k]` /
`k in d`, as `Option`). -/
def alistLookup (l : List (ℤ × Node)) (k : ℤ) : Option Node :=
  (l.find? fun e => e.1 = k).map fun e => e.2

/-- Python `d[k] = v` for a key already present: update in place. -/
def alistUpdate (l : List (ℤ × Node)) (k : ℤ) (v : Node) : List (ℤ × Node) :=
  l.map fun e => if e.1 = k then (k, v) else e

/-- Python `del d[k]`. -/
def alistErase (l : List (ℤ × Node)) (k : ℤ) : List (ℤ × Node) :=
  l.filter fun e => ¬ e.1 = k

/-- `min(openset, key=lambda o: openset[o].cost)`: earliest entry of minimal
cost (`none` models the `ValueError` raised on an empty dict). -/
def selectMin (l : List (ℤ × Node)) : Option (ℤ × Node) :=
  match l with
  | [] => none
  | e :: es => some (es.foldl (fun best c => if c.2.cost < best.2.cost then c else best) e)

/-- The neighbour node built from `current` and motion `m`
(`self.Node(current.x + ..., current.y + ..., current.cost + ..., c_id)`). -/
def neighborNode (current : Node) (c_id : ℤ) (m : ℤ × ℤ × Cost) : Node :=
  ⟨current.x + m.1, current.y + m.2.1, current.cost + m.2.2, c_id⟩

/-- The inner `for i, _ in enumerate(self.motion)` loop of `planning`:
relaxation of the eight neighbours of `current`. -/
def expandNode (gs : GraphSearch) (current : Node) (c_id : ℤ)
    (closedset : List (ℤ × Node)) :
    List (ℤ × Node) → List (ℤ × ℤ × Cost) → Except PlanExc (List (ℤ × Node))
  | openset, [] => .ok openset
  | openset, m :: ms =>
    let node : Node := neighborNode current c_id m
    let n_id := gs.calc_index node
    if (alistLookup closedset n_id).isSome then
      expandNode gs current c_id closedset openset ms
    else
      match gs.verify_node node with
      | .error e => .error e
      | .ok false => expandNode gs current c_id closedset openset ms
      | .ok true =>
        match alistLookup openset n_id with
        | none => expandNode gs current c_id closedset (openset ++ [(n_id, node)]) ms
        | some old =>
          if node.cost < old.cost then
            expandNode gs current c_id closedset (alistUpdate openset n_id node) ms
          else
            expandNode gs current c_id closedset openset ms

/-- State of the `while 1` loop of `planning`. -/
structure LoopState where
  openset : List (ℤ × Node)
  closedset : List (ℤ × Node)
  expansion : List (ℚ × ℚ)
  deriving DecidableEq, Repr

/-- Outcome of one iteration of the `while 1` loop of `planning`. -/
inductive StepRes where
  | raised (e : PlanExc)
  | found (ngoal2 : Node) (closedset : List (ℤ × Node)) (expansion : List (ℚ × ℚ))
  | next (st : LoopState)
  deriving DecidableEq, Repr

/-- One iteration of the `while 1` loop of `planning`: pop the minimum-cost
frontier entry (`ValueError` on empty), test for the goal, otherwise move it
to the closed set and relax the eight neighbours. -/
def stepLoop (gs : GraphSearch) (ngoal : Node) (st : LoopState) : StepRes :=
  match selectMin st.openset with
  | none => .raised .valueError
  | some (c_id, current) =>
    let expansion' := st.expansion ++
      [(gs.calc_position current.x gs.minx, gs.calc_position current.y gs.miny)]
    if current.x = ngoal.x ∧ current.y = ngoal.y then
      .found ⟨ngoal.x, ngoal.y, current.cost, current.pind⟩ st.closedset expansion'
    else
      let openset' := alistErase st.openset c_id
      let closedset' := st.closedset ++ [(c_id, current)]
      match expandNode gs current c_id closedset' openset' motionModel with
      | .error e => .raised e
      | .ok openset'' => .next ⟨openset'', closedset', expansion'⟩

/-- Result of the `while 1` loop on the found-goal `break`: the updated
`ngoal`, the closed set and the expansion log. -/
def searchLoop (gs : GraphSearch) (ngoal : Node) :
    ℕ → LoopState → Option (Except PlanExc (Node × List (ℤ × Node) × List (ℚ × ℚ)))
  | 0, _ => none
  | fuel + 1, st =>
    match stepLoop gs ngoal st with
    | .raised e => some (.error e)
    | .found ng cl ex => some (.ok (ng, cl, ex))
    | .next st' => searchLoop gs ngoal fuel st'

/-- The `while pind != -1` loop of `calc_final_path` (fuelled; a missing key
models the `KeyError` that `closedset[pind]` would raise). -/
def finalPathLoop (gs : GraphSearch) (closedset : List (ℤ × Node)) :
    ℕ → ℤ → List ℚ → List ℚ → Option (Except PlanExc (List ℚ × List ℚ))
  | 0, _, _, _ => none
  | fuel + 1, pind, rx, ry =>
    if pind = -1 then some (.ok (rx, ry))
    else
      match alistLookup closedset pind with
      | none => some (.error .keyError)
      | some n =>
        finalPathLoop gs closedset fuel n.pind
          (rx ++ [gs.calc_position n.x gs.minx]) (ry ++ [gs.calc_position n.y gs.miny])

/-- `calc_final_path`: waypoints from the goal back along parent pointers. -/
def GraphSearch.calc_final_path (gs : GraphSearch) (ngoal : Node)
    (closedset : List (ℤ × Node)) : Option (Except PlanExc (List ℚ × List ℚ)) :=
  finalPathLoop gs closedset (closedset.length + 1) ngoal.pind
    [gs.calc_position ngoal.x gs.minx] [gs.calc_position ngoal.y gs.miny]

/-- The start (or goal) node `planning` builds from continuous coordinates:
grid indices via `calc_xyindex`, cost 0, no parent. -/
def startNode (gs : GraphSearch) (px py : ℚ) : Node :=
  ⟨gs.calc_xyindex px gs.minx, gs.calc_xyindex py gs.miny, 0, -1⟩

/-- The initial loop state of `planning`: frontier holding only the start
node, empty closed set, empty expansion log. -/
def initState (gs : GraphSearch) (sx sy : ℚ) : LoopState :=
  ⟨[(gs.calc_index (startNode gs sx sy), startNode gs sx sy)], [], []⟩

/-- `planning(sx, sy, gx, gy)`: full planner run; `some (.ok (rx, ry, expansion))`
on success, `some (.error e)` on a raised exception, `none` if out of fuel. -/
def GraphSearch.planning (gs : GraphSearch) (sx sy gx gy : ℚ) (fuel : ℕ) :
    Option (Except PlanExc (List ℚ × List ℚ × List (ℚ × ℚ))) :=
  let ngoal : Node := startNode gs gx gy
  match searchLoop gs ngoal fuel (initState gs sx sy) with
  | none => none
  | some (.error e) => some (.error e)
  | some (.ok (ng, closed, expansion)) =>
    match gs.calc_final_path ng closed with
    | none => none
    | some (.error e) => some (.error e)
    | some (.ok (rx, ry)) => some (.ok (rx, ry, expansion))

/-! ### Specification-side model of 8-connected obstacle-free paths

A path is a list of motion primitives applied from a start cell; a path is
valid when every visited cell (endpoints included) passes `verify_node` and
every step is one of the eight motions of `get_motion_model`. -/

/-- The grid cell of a search node. -/
def cellOf (n : Node) : ℤ × ℤ := (n.x, n.y)

/-- A cell the planner may stand on: in bounds and collision free according
to the code's own `verify_node`. -/
def FreeCell (gs : GraphSearch) (c : ℤ × ℤ) : Prop :=
  gs.verify_node ⟨c.1, c.2, 0, -1⟩ = .ok true

instance (gs : GraphSearch) (c : ℤ × ℤ) : Decidable (FreeCell gs c) := by
  unfold FreeCell; infer_instance

/-- Apply one motion primitive to a cell. -/
def applyMove (c : ℤ × ℤ) (m : ℤ × ℤ × Cost) : ℤ × ℤ := (c.1 + m.1, c.2 + m.2.1)

/-- Final cell of a path. -/
def pathEnd (s : ℤ × ℤ) (ms : List (ℤ × ℤ × Cost)) : ℤ × ℤ := ms.foldl applyMove s

/-- Total cost of a path: 1 per axis-aligned step, sqrt 2 per diagonal step
(the costs carried by the motion model). -/
def pathCost (ms : List (ℤ × ℤ × Cost)) : Cost := (ms.map fun m => m.2.2).sum

/-- The sequence of cells a path visits, start and end inclusive. -/
def pathCells (s : ℤ × ℤ) : List (ℤ × ℤ × Cost) → List (ℤ × ℤ)
  | [] => [s]
  | m :: ms => s :: pathCells (applyMove s m) ms

/-- An 8-connected obstacle-free path: every step is a motion-model move and
every visited cell (including both endpoints) is free. -/
def ValidPath (gs : GraphSearch) : ℤ × ℤ → List (ℤ × ℤ × Cost) → Prop
  | s, [] => FreeCell gs s
  | s, m :: ms => FreeCell gs s ∧ m ∈ motionModel ∧ ValidPath gs (applyMove s m) ms

instance instDecidableValidPath (gs : GraphSearch) :
    (s : ℤ × ℤ) → (ms : List (ℤ × ℤ × Cost)) → Decidable (ValidPath gs s ms)
  | _, [] => by unfold ValidPath; infer_instance
  | s, m :: ms =>
    have := instDecidableValidPath gs (applyMove s m) ms
    by unfold ValidPath; infer_instance

/-! ### Basic facts about costs -/

theorem motion_cost_nonneg : ∀ m ∈ motionModel, (0 : Cost) ≤ m.2.2 := by decide

theorem cost_add_le_left {a b : Cost} (h : a ≤ b) (c : Cost) : c + a ≤ c + b :=
  Zsqrtd.add_le_add_left a b h c

theorem cost_add_le_right {a b : Cost} (h : a ≤ b) (c : Cost) : a + c ≤ b + c := by
  rw [add_comm a c, add_comm b c]; exact cost_add_le_left h c

theorem cost_le_add_of_nonneg {a b : Cost} (hb : 0 ≤ b) : a ≤ a + b := by
  have := cost_add_le_left hb a
  rwa [add_zero] at this

theorem cost_add_nonneg {a b : Cost} (ha : 0 ≤ a) (hb : 0 ≤ b) : 0 ≤ a + b :=
  le_trans ha (cost_le_add_of_nonneg hb)

theorem pathCost_nil : pathCost [] = 0 := rfl

theorem pathCost_cons (m : ℤ × ℤ × Cost) (ms : List (ℤ × ℤ × Cost)) :
    pathCost (m :: ms) = m.2.2 + pathCost ms := by
  simp [pathCost]

theorem pathCost_append (ms1 ms2 : List (ℤ × ℤ × Cost)) :
    pathCost (ms1 ++ ms2) = pathCost ms1 + pathCost ms2 := by
  simp [pathCost]

theorem pathCost_nonneg {ms : List (ℤ × ℤ × Cost)} (h : ∀ m ∈ ms, m ∈ motionModel) :
    (0 : Cost) ≤ pathCost ms := by
  induction ms with
  | nil => simp [pathCost_nil]
  | cons m ms ih =>
    rw [pathCost_cons]
    exact cost_add_nonneg (motion_cost_nonneg m (h m (by simp)))
      (ih fun x hx => h x (by simp [hx]))

/-! ### Basic facts about paths -/

theorem validPath_free_start {gs : GraphSearch} {s : ℤ × ℤ} {ms : List (ℤ × ℤ × Cost)}
    (h : ValidPath gs s ms) : FreeCell gs s := by
  cases ms with
  | nil => exact h
  | cons m ms => exact h.1

theorem validPath_moves {gs : GraphSearch} {s : ℤ × ℤ} {ms : List (ℤ × ℤ × Cost)}
    (h : ValidPath gs s ms) : ∀ m ∈ ms, m ∈ motionModel := by
  induction ms generalizing s with
  | nil => simp
  | cons m ms ih =>
    intro x hx
    rcases List.mem_cons.1 hx with rfl | hx
    · exact h.2.1
    · exact ih h.2.2 x hx

theorem pathEnd_nil (s : ℤ × ℤ) : pathEnd s [] = s := rfl

theorem pathEnd_cons (s : ℤ × ℤ) (m : ℤ × ℤ × Cost) (ms : List (ℤ × ℤ × Cost)) :
    pathEnd s (m :: ms) = pathEnd (applyMove s m) ms := rfl

theorem pathEnd_append_one (s : ℤ × ℤ) (ms : List (ℤ × ℤ × Cost)) (m : ℤ × ℤ × Cost) :
    pathEnd s (ms ++ [m]) = applyMove (pathEnd s ms) m := by
  induction ms generalizing s with
  | nil => rfl
  | cons m0 ms ih => rw [List.cons_append, pathEnd_cons, pathEnd_cons, ih]

theorem validPath_free_end {gs : GraphSearch} {s : ℤ × ℤ} {ms : List (ℤ × ℤ × Cost)}
    (h : ValidPath gs s ms) : FreeCell gs (pathEnd s ms) := by
  induction ms generalizing s with
  | nil => exact h
  | cons m ms ih => exact ih h.2.2

theorem validPath_append_one {gs : GraphSearch} {s : ℤ × ℤ} {ms : List (ℤ × ℤ × Cost)}
    {m : ℤ × ℤ × Cost} (h : ValidPath gs s ms) (hm : m ∈ motionModel)
    (hf : FreeCell gs (applyMove (pathEnd s ms) m)) : ValidPath gs s (ms ++ [m]) := by
  induction ms generalizing s with
  | nil => exact ⟨h, hm, hf⟩
  | cons m0 ms ih =>
    exact ⟨h.1, h.2.1, ih h.2.2 (by rwa [pathEnd_cons] at hf)⟩

theorem validPath_snoc_elim {gs : GraphSearch} {s : ℤ × ℤ} {ms : List (ℤ × ℤ × Cost)}
    {m : ℤ × ℤ × Cost} (h : ValidPath gs s (ms ++ [m])) :
    ValidPath gs s ms ∧ m ∈ motionModel := by
  induction ms generalizing s with
  | nil => exact ⟨h.1, h.2.1⟩
  | cons m0 ms ih =>
    obtain ⟨h1, h2⟩ := ih h.2.2
    exact ⟨⟨h.1, h.2.1, h1⟩, h2⟩

theorem pathCells_ne_nil (s : ℤ × ℤ) (ms : List (ℤ × ℤ × Cost)) : pathCells s ms ≠ [] := by
  cases ms <;> simp [pathCells]

theorem pathCells_head (s : ℤ × ℤ) (ms : List (ℤ × ℤ × Cost)) :
    (pathCells s ms).head? = some s := by
  cases ms <;> rfl

theorem pathCells_append_one (s : ℤ × ℤ) (ms : List (ℤ × ℤ × Cost)) (m : ℤ × ℤ × Cost) :
    pathCells s (ms ++ [m]) = pathCells s ms ++ [applyMove (pathEnd s ms) m] := by
  induction ms generalizing s with
  | nil => rfl
  | cons m0 ms ih => simp [pathCells, ih, pathEnd_cons]

theorem pathCells_getLast (s : ℤ × ℤ) (ms : List (ℤ × ℤ × Cost)) :
    (pathCells s ms).getLast (pathCells_ne_nil s ms) = pathEnd s ms := by
  induction ms generalizing s with
  | nil => rfl
  | cons m ms ih =>
    rw [pathEnd_cons, ← ih (applyMove s m)]
    simp [pathCells, List.getLast_cons (pathCells_ne_nil _ ms)]

theorem validPath_cells_free {gs : GraphSearch} {s : ℤ × ℤ} {ms : List (ℤ × ℤ × Cost)}
    (h : ValidPath gs s ms) : ∀ c ∈ pathCells s ms, FreeCell gs c := by
  induction ms generalizing s with
  | nil =>
    intro c hc
    simp [pathCells] at hc
    exact hc ▸ h
  | cons m ms ih =>
    intro c hc
    rcases List.mem_cons.1 hc with rfl | hc
    · exact h.1
    · exact ih h.2.2 c hc

/-! ### Association-list lemmas (insertion-ordered Python dicts) -/

theorem alistLookup_nil (k : ℤ) : alistLookup [] k = none := rfl

theorem alistLookup_cons (e : ℤ × Node) (l : List (ℤ × Node)) (k : ℤ) :
    alistLookup (e :: l) k = if e.1 = k then some e.2 else alistLookup l k := by
  unfold alistLookup
  by_cases h : e.1 = k
  · rw [if_pos h, List.find?_cons_of_pos _ (by simpa using h)]
    rfl
  · rw [if_neg h, List.find?_cons_of_neg _ (by simpa using h)]

theorem alistLookup_mem {l : List (ℤ × Node)} {k : ℤ} {v : Node}
    (h : alistLookup l k = some v) : (k, v) ∈ l := by
  induction l with
  | nil => simp [alistLookup_nil] at h
  | cons e l ih =>
    rcases e with ⟨a, b⟩
    rw [alistLookup_cons] at h
    by_cases he : a = k
    · rw [if_pos he] at h
      injection h with h2
      subst he h2
      exact List.mem_cons_self _ _
    · rw [if_neg he] at h
      exact List.mem_cons.2 (Or.inr (ih h))

theorem alistLookup_isSome_iff {l : List (ℤ × Node)} {k : ℤ} :
    (alistLookup l k).isSome = true ↔ k ∈ l.map (fun e => e.1) := by
  induction l with
  | nil => simp [alistLookup_nil]
  | cons e l ih =>
    rw [alistLookup_cons]
    by_cases h : e.1 = k
    · simp [h]
    · rw [if_neg h]
      simp only [List.map_cons, List.mem_cons, ih]
      constructor
      · exact Or.inr
      · rintro (rfl | hm)
        · exact absurd rfl h
        · exact hm

theorem alistLookup_eq_none_iff {l : List (ℤ × Node)} {k : ℤ} :
    alistLookup l k = none ↔ k ∉ l.map (fun e => e.1) := by
  rw [← alistLookup_isSome_iff]
  cases h : alistLookup l k <;> simp

theorem alistLookup_of_mem {l : List (ℤ × Node)} {k : ℤ} {v : Node}
    (hnd : (l.map (fun e => e.1)).Nodup) (h : (k, v) ∈ l) : alistLookup l k = some v := by
  induction l with
  | nil => simp at h
  | cons e l ih =>
    rw [alistLookup_cons]
    rcases List.mem_cons.1 h with rfl | h
    · simp
    · have hk : ¬ e.1 = k := by
        intro he
        have hmem : k ∈ l.map (fun e => e.1) := List.mem_map.2 ⟨(k, v), h, rfl⟩
        rw [← he] at hmem
        exact absurd hmem (List.nodup_cons.1 hnd).1
      rw [if_neg hk]
      exact ih (List.nodup_cons.1 hnd).2 h

theorem alistErase_keys (l : List (ℤ × Node)) (k : ℤ) :
    (alistErase l k).map (fun e => e.1) = (l.map (fun e => e.1)).filter (fun x => ¬ x = k) := by
  unfold alistErase
  induction l with
  | nil => rfl
  | cons e l ih =>
    by_cases h : e.1 = k
    · rw [List.filter_cons_of_neg (by simpa using h), List.map_cons,
        List.filter_cons_of_neg (by simpa using h), ih]
    · rw [List.filter_cons_of_pos (by simpa using h), List.map_cons, List.map_cons,
        List.filter_cons_of_pos (by simpa using h), ih]

/-! ### The obstacle map: dimensions, lookup, and bounds of free cells -/

/-- Well-formed obstacle-map dimensions (holds for every constructed grid). -/
def ObmapDims (gs : GraphSearch) : Prop :=
  gs.obmap.length = gs.xwidth.toNat ∧ ∀ row ∈ gs.obmap, row.length = gs.ywidth.toNat

/-- The occupancy value the code reads at a cell (`true` as junk default when
the lookup would raise). -/
def obmapAt (gs : GraphSearch) (c : ℤ × ℤ) : Bool :=
  match pyIndex gs.obmap c.1 with
  | none => true
  | some row =>
    match pyIndex row c.2 with
    | none => true
    | some occ => occ

theorem mk_dims (ox oy : List ℚ) (reso rr : ℚ) : ObmapDims (mkGraphSearch ox oy reso rr) := by
  constructor
  · simp only [mkGraphSearch, List.length_map, List.length_range]
  · intro row hrow
    simp only [mkGraphSearch, List.mem_map, List.mem_range] at hrow
    rcases hrow with ⟨i, _, rfl⟩
    simp only [mkGraphSearch, List.length_map, List.length_range]

theorem pyIndex_of_nonneg {α : Type} (l : List α) {i : ℤ} (h : 0 ≤ i) :
    pyIndex l i = l.get? i.toNat := by
  unfold pyIndex
  rw [if_pos h]

/-- A free cell (in the sense of `verify_node`) has in-range grid indices and
an unoccupied obstacle-map entry. -/
theorem freeCell_bounds {gs : GraphSearch} (hreso : 0 < gs.reso) (hd : ObmapDims gs)
    {c : ℤ × ℤ} (h : FreeCell gs c) :
    0 ≤ c.1 ∧ c.1 < gs.xwidth ∧ 0 ≤ c.2 ∧ c.2 < gs.ywidth ∧ obmapAt gs c = false := by
  unfold FreeCell GraphSearch.verify_node at h
  simp only [GraphSearch.calc_position] at h
  by_cases h1 : (c.1 : ℚ) * gs.reso + (gs.minx : ℚ) < (gs.minx : ℚ)
  · rw [if_pos h1] at h
    exact absurd h (by simp)
  rw [if_neg h1] at h
  by_cases h2 : (c.2 : ℚ) * gs.reso + (gs.miny : ℚ) < (gs.miny : ℚ)
  · rw [if_pos h2] at h
    exact absurd h (by simp)
  rw [if_neg h2] at h
  by_cases h3 : (gs.maxx : ℚ) ≤ (c.1 : ℚ) * gs.reso + (gs.minx : ℚ)
  · rw [if_pos h3] at h
    exact absurd h (by simp)
  rw [if_neg h3] at h
  by_cases h4 : (gs.maxy : ℚ) ≤ (c.2 : ℚ) * gs.reso + (gs.miny : ℚ)
  · rw [if_pos h4] at h
    exact absurd h (by simp)
  rw [if_neg h4] at h
  have hx0 : 0 ≤ c.1 := by
    by_contra hneg
    push_neg at hneg
    have : (c.1 : ℚ) < 0 := by exact_mod_cast hneg
    exact h1 (by nlinarith)
  have hy0 : 0 ≤ c.2 := by
    by_contra hneg
    push_neg at hneg
    have : (c.2 : ℚ) < 0 := by exact_mod_cast hneg
    exact h2 (by nlinarith)
  split at h
  · exact absurd h (by simp)
  rename_i row hrow
  split at h
  · exact absurd h (by simp)
  rename_i occ hocc
  have hrowg : gs.obmap.get? c.1.toNat = some row := by
    rw [← pyIndex_of_nonneg _ hx0]
    exact hrow
  have hoccg : row.get? c.2.toNat = some occ := by
    rw [← pyIndex_of_nonneg _ hy0]
    exact hocc
  have hxlt : c.1.toNat < gs.obmap.length := by
    by_contra hge
    push_neg at hge
    rw [List.get?_eq_none.2 hge] at hrowg
    exact Option.noConfusion hrowg
  have hxw : c.1 < gs.xwidth := by
    rw [hd.1] at hxlt
    omega
  have hrowmem : row ∈ gs.obmap := List.get?_mem hrowg
  have hrowlen : row.length = gs.ywidth.toNat := hd.2 row hrowmem
  have hylt : c.2.toNat < row.length := by
    by_contra hge
    push_neg at hge
    rw [List.get?_eq_none.2 hge] at hoccg
    exact Option.noConfusion hoccg
  have hyw : c.2 < gs.ywidth := by
    rw [hrowlen] at hylt
    omega
  have hoccf : occ = false := by
    cases occ
    · rfl
    · rw [if_pos rfl] at h
      exact absurd h (by simp)
  refine ⟨hx0, hxw, hy0, hyw, ?_⟩
  simp only [obmapAt, hrow, hocc, hoccf]

/-- The linear cell id, as a function of the cell. -/
def cellIndex (gs : GraphSearch) (c : ℤ × ℤ) : ℤ :=
  (c.2 - gs.miny) * gs.xwidth + (c.1 - gs.minx)

theorem calc_index_eq_cellIndex (gs : GraphSearch) (n : Node) :
    gs.calc_index n = cellIndex gs (cellOf n) := rfl

/-- On in-range cells the linear id is injective. -/
theorem cellIndex_inj {gs : GraphSearch} {c1 c2 : ℤ × ℤ}
    (b1 : 0 ≤ c1.1 ∧ c1.1 < gs.xwidth) (b2 : 0 ≤ c2.1 ∧ c2.1 < gs.xwidth)
    (h : cellIndex gs c1 = cellIndex gs c2) : c1 = c2 := by
  rcases c1 with ⟨a1, b1v⟩
  rcases c2 with ⟨a2, b2v⟩
  simp only at b1 b2
  have key : (b1v - b2v) * gs.xwidth = a2 - a1 := by
    unfold cellIndex at h
    simp only at h
    linear_combination h
  have hw : 0 < gs.xwidth := by omega
  rcases lt_trichotomy (b1v - b2v) 0 with hdlt | hdeq | hdgt
  · have hle : b1v - b2v ≤ -1 := by omega
    have : (b1v - b2v) * gs.xwidth ≤ -1 * gs.xwidth :=
      mul_le_mul_of_nonneg_right hle (le_of_lt hw)
    rw [key] at this
    omega
  · have ha : a1 = a2 := by
      rw [hdeq, zero_mul] at key
      omega
    have hb : b1v = b2v := by omega
    rw [ha, hb]
  · have hle : 1 ≤ b1v - b2v := by omega
    have : 1 * gs.xwidth ≤ (b1v - b2v) * gs.xwidth :=
      mul_le_mul_of_nonneg_right hle (le_of_lt hw)
    rw [key] at this
    omega

/-! ### Construction lemmas for the occupancy grid -/

theorem mk_minx (ox oy : List ℚ) (reso rr : ℚ) :
    (mkGraphSearch ox oy reso rr).minx = pyround (pymin ox) := rfl

theorem mk_miny (ox oy : List ℚ) (reso rr : ℚ) :
    (mkGraphSearch ox oy reso rr).miny = pyround (pymin oy) := rfl

theorem mk_maxx (ox oy : List ℚ) (reso rr : ℚ) :
    (mkGraphSearch ox oy reso rr).maxx = pyround (pymax ox) := rfl

theorem mk_maxy (ox oy : List ℚ) (reso rr : ℚ) :
    (mkGraphSearch ox oy reso rr).maxy = pyround (pymax oy) := rfl

theorem mk_reso (ox oy : List ℚ) (reso rr : ℚ) :
    (mkGraphSearch ox oy reso rr).reso = reso := rfl

theorem mk_xwidth (ox oy : List ℚ) (reso rr : ℚ) :
    (mkGraphSearch ox oy reso rr).xwidth =
      pyround (((pyround (pymax ox) : ℚ) - (pyround (pymin ox) : ℚ)) / reso) := rfl

theorem mk_ywidth (ox oy : List ℚ) (reso rr : ℚ) :
    (mkGraphSearch ox oy reso rr).ywidth =
      pyround (((pyround (pymax oy) : ℚ) - (pyround (pymin oy) : ℚ)) / reso) := rfl

theorem pyround_le_ceil (q : ℚ) : pyround q ≤ ⌈q⌉ := by
  have hfl : ⌊q⌋ ≤ ⌈q⌉ := Int.floor_le_ceil q
  have hstep : 1 / 2 ≤ q - ⌊q⌋ → ⌊q⌋ + 1 ≤ ⌈q⌉ := by
    intro hr
    have hlt : (⌊q⌋ : ℚ) < q := by linarith
    have hle : q ≤ (⌈q⌉ : ℚ) := Int.le_ceil q
    have : (⌊q⌋ : ℚ) < (⌈q⌉ : ℚ) := lt_of_lt_of_le hlt hle
    have : ⌊q⌋ < ⌈q⌉ := by exact_mod_cast this
    omega
  unfold pyround
  by_cases h1 : q - ⌊q⌋ < 1 / 2
  · rw [if_pos h1]
    exact hfl
  · rw [if_neg h1]
    by_cases h2 : 1 / 2 < q - ⌊q⌋
    · rw [if_pos h2]
      exact hstep (by linarith)
    · rw [if_neg h2]
      by_cases h3 : 2 ∣ ⌊q⌋
      · rw [if_pos h3]
        exact hfl
      · rw [if_neg h3]
        exact hstep (by linarith)

/-- Occupancy entry of a constructed grid, at in-range indices: the
brute-force obstacle scan of `calc_obstacle_map`. -/
theorem mk_obmapAt (ox oy : List ℚ) (reso rr : ℚ) {ix iy : ℤ}
    (hix : 0 ≤ ix) (hx : ix < (mkGraphSearch ox oy reso rr).xwidth)
    (hiy : 0 ≤ iy) (hy : iy < (mkGraphSearch ox oy reso rr).ywidth) :
    obmapAt (mkGraphSearch ox oy reso rr) (ix, iy) =
      (ox.zip oy).any (occTest rr
        ((ix : ℚ) * reso + ((mkGraphSearch ox oy reso rr).minx : ℚ))
        ((iy : ℚ) * reso + ((mkGraphSearch ox oy reso rr).miny : ℚ))) := by
  set gs := mkGraphSearch ox oy reso rr with hgs
  have hxn : ix.toNat < gs.xwidth.toNat := by omega
  have hyn : iy.toNat < gs.ywidth.toNat := by omega
  have hobmap : gs.obmap = (List.range gs.xwidth.toNat).map fun (i : ℕ) =>
      (List.range gs.ywidth.toNat).map fun (j : ℕ) =>
        (ox.zip oy).any (occTest rr ((i : ℚ) * reso + (gs.minx : ℚ))
          ((j : ℚ) * reso + (gs.miny : ℚ))) := rfl
  unfold obmapAt
  rw [pyIndex_of_nonneg _ hix, hobmap, List.get?_map, List.get?_range hxn]
  simp only [Option.map_some']
  rw [pyIndex_of_nonneg _ hiy, List.get?_map, List.get?_range hyn]
  simp only [Option.map_some']
  have hcx : ((ix.toNat : ℕ) : ℚ) = (ix : ℚ) := by
    rw [← Int.toNat_of_nonneg hix]
    push_cast
    rfl
  have hcy : ((iy.toNat : ℕ) : ℚ) = (iy : ℚ) := by
    rw [← Int.toNat_of_nonneg hiy]
    push_cast
    rfl
  rw [hcx, hcy]

/-- The exact-real reading of the code's occupancy test: comparing the
square root over `ℝ` is the same as the rational squared comparison. -/
theorem occTest_iff_sqrt (rr x y : ℚ) (p : ℚ × ℚ) :
    occTest rr x y p = true ↔
      Real.sqrt (((p.1 : ℝ) - (x : ℝ)) ^ 2 + ((p.2 : ℝ) - (y : ℝ)) ^ 2) ≤ (rr : ℝ) := by
  unfold occTest
  rw [Bool.and_eq_true, decide_eq_true_eq, decide_eq_true_eq]
  constructor
  · rintro ⟨h0, hle⟩
    have h0' : (0 : ℝ) ≤ (rr : ℝ) := by exact_mod_cast h0
    rw [Real.sqrt_le_left h0']
    have hr : (((p.1 - x) ^ 2 + (p.2 - y) ^ 2 : ℚ) : ℝ) ≤ ((rr ^ 2 : ℚ) : ℝ) := by
      exact_mod_cast hle
    push_cast at hr
    linarith
  · intro hle
    have h0' : (0 : ℝ) ≤ (rr : ℝ) := le_trans (Real.sqrt_nonneg _) hle
    have h0 : (0 : ℚ) ≤ rr := by exact_mod_cast h0'
    refine ⟨h0, ?_⟩
    rw [Real.sqrt_le_left h0'] at hle
    have : (((p.1 - x) ^ 2 + (p.2 - y) ^ 2 : ℚ) : ℝ) ≤ ((rr ^ 2 : ℚ) : ℝ) := by
      push_cast
      linarith
    exact_mod_cast this

/-- The four positional guards of `verify_node` (in source order). -/
def PosChecksPass (gs : GraphSearch) (node : Node) : Prop :=
  ¬ gs.calc_position node.x gs.minx < (gs.minx : ℚ) ∧
  ¬ gs.calc_position node.y gs.miny < (gs.miny : ℚ) ∧
  ¬ (gs.maxx : ℚ) ≤ gs.calc_position node.x gs.minx ∧
  ¬ (gs.maxy : ℚ) ≤ gs.calc_position node.y gs.miny

instance (gs : GraphSearch) (node : Node) : Decidable (PosChecksPass gs node) := by
  unfold PosChecksPass
  infer_instance

/-- When the positional guards pass, `verify_node` is the occupancy lookup. -/
theorem verify_node_of_checks {gs : GraphSearch} {node : Node}
    (h : PosChecksPass gs node) :
    gs.verify_node node =
      match pyIndex gs.obmap node.x with
      | none => .error .indexError
      | some row =>
        match pyIndex row node.y with
        | none => .error .indexError
        | some occ => if occ then .ok false else .ok true := by
  obtain ⟨h1, h2, h3, h4⟩ := h
  unfold GraphSearch.verify_node
  rw [if_neg h1, if_neg h2, if_neg h3, if_neg h4]

/-- Index bounds recovered from the positional guards, given that the grid
widths cover the bounding-box spans. -/
theorem posChecks_bounds {gs : GraphSearch} (hreso : 0 < gs.reso)
    (hsx : ((gs.maxx : ℚ) - (gs.minx : ℚ)) ≤ (gs.xwidth : ℚ) * gs.reso)
    (hsy : ((gs.maxy : ℚ) - (gs.miny : ℚ)) ≤ (gs.ywidth : ℚ) * gs.reso)
    {node : Node} (h : PosChecksPass gs node) :
    0 ≤ node.x ∧ node.x < gs.xwidth ∧ 0 ≤ node.y ∧ node.y < gs.ywidth := by
  obtain ⟨h1, h2, h3, h4⟩ := h
  unfold GraphSearch.calc_position at h1 h2 h3 h4
  push_neg at h1 h2 h3 h4
  have hx0 : (0 : ℚ) ≤ (node.x : ℚ) := nonneg_of_mul_nonneg_right (by linarith) hreso
  have hy0 : (0 : ℚ) ≤ (node.y : ℚ) := nonneg_of_mul_nonneg_right (by linarith) hreso
  have hxw : (node.x : ℚ) < (gs.xwidth : ℚ) := by
    have hlt : (node.x : ℚ) * gs.reso < (gs.xwidth : ℚ) * gs.reso := by linarith
    exact lt_of_mul_lt_mul_right (by linarith) (le_of_lt hreso)
  have hyw : (node.y : ℚ) < (gs.ywidth : ℚ) := by
    have hlt : (node.y : ℚ) * gs.reso < (gs.ywidth : ℚ) * gs.reso := by linarith
    exact lt_of_mul_lt_mul_right (by linarith) (le_of_lt hreso)
  refine ⟨by exact_mod_cast hx0, by exact_mod_cast hxw, by exact_mod_cast hy0,
    by exact_mod_cast hyw⟩

/-! ### Concrete grids used as witnesses and counterexamples -/

/-- Obstacles at (0,0) and (10,10), resolution 1, robot radius 1/2: a 10 by 10
grid whose only occupied cell is (0,0). -/
def demoGrid : GraphSearch := mkGraphSearch [0, 10] [0, 10] 1 (1 / 2)

/-- Obstacles exactly on the eight cells surrounding (2,2) (plus two corner
points fixing the bounding box), resolution 1, robot radius 0: cell (2,2) is
free but walled in. -/
def ringGrid : GraphSearch :=
  mkGraphSearch [0, 4, 1, 1, 1, 2, 2, 3, 3, 3] [0, 4, 1, 2, 3, 1, 3, 1, 2, 3] 1 0

/-- Obstacles at (0.4, 0.4) and (5.4, 5.4) with resolution 2: the spans round
to 5 and `round(5/2) = 2`, so the grid widths under-cover the bounding box. -/
def skewGrid : GraphSearch := mkGraphSearch [2 / 5, 27 / 5] [2 / 5, 27 / 5] 2 0

theorem alistErase_mem {l : List (ℤ × Node)} {k : ℤ} {e : ℤ × Node} :
    e ∈ alistErase l k ↔ e ∈ l ∧ ¬ e.1 = k := by
  unfold alistErase
  simp

theorem alistUpdate_keys (l : List (ℤ × Node)) (k : ℤ) (v : Node) :
    (alistUpdate l k v).map (fun e => e.1) = l.map (fun e => e.1) := by
  unfold alistUpdate
  induction l with
  | nil => rfl
  | cons e l ih =>
    by_cases h : e.1 = k <;> simp [h, ih]

theorem alistUpdate_mem {l : List (ℤ × Node)} {k : ℤ} {v : Node} {e : ℤ × Node}
    (h : e ∈ alistUpdate l k v) : e = (k, v) ∨ (e ∈ l ∧ ¬ e.1 = k) := by
  unfold alistUpdate at h
  rcases List.mem_map.1 h with ⟨e0, he0, heq⟩
  by_cases h0 : e0.1 = k
  · left
    rw [if_pos h0] at heq
    exact heq.symm
  · right
    rw [if_neg h0] at heq
    exact ⟨heq ▸ he0, heq ▸ h0⟩

theorem alistUpdate_lookup_self {l : List (ℤ × Node)} {k : ℤ} (v : Node)
    (h : k ∈ l.map (fun e => e.1)) : alistLookup (alistUpdate l k v) k = some v := by
  induction l with
  | nil => simp at h
  | cons e l ih =>
    by_cases h0 : e.1 = k
    · unfold alistUpdate alistLookup
      simp [List.find?, h0]
    · have h1 : k ∈ l.map (fun e => e.1) := by
        rcases List.mem_map.1 h with ⟨e0, he0, rfl⟩
        rcases List.mem_cons.1 he0 with rfl | he0
        · exact absurd rfl h0
        · exact List.mem_map_of_mem _ he0
      unfold alistUpdate alistLookup at ih ⊢
      simp only [List.map_cons, List.find?, if_neg h0]
      rw [show (decide (e.1 = k)) = false by simpa using h0]
      exact ih h1

/-! ### The expansion step: specification of the relaxation loop -/

/-- `verify_node` reads only the grid indices of its argument. -/
theorem verify_node_only_cell (gs : GraphSearch) (n : Node) :
    gs.verify_node n = gs.verify_node ⟨n.x, n.y, 0, -1⟩ := rfl

theorem cellOf_neighborNode (current : Node) (c_id : ℤ) (m : ℤ × ℤ × Cost) :
    cellOf (neighborNode current c_id m) = applyMove (cellOf current) m := rfl

/-- Full postcondition of the relaxation loop `expandNode`: key discipline is
preserved, every output entry is an input entry or a freshly verified
neighbour, input entries survive with no larger cost, and every free
neighbour examined ends up closed or in the frontier with a relaxed cost. -/
theorem expandNode_spec (gs : GraphSearch) (cur : Node) (c_id : ℤ)
    (cl : List (ℤ × Node)) :
    ∀ (ms : List (ℤ × ℤ × Cost)) (openset opfin : List (ℤ × Node)),
    (openset.map (fun e => e.1)).Nodup →
    (∀ k ∈ openset.map (fun e => e.1), k ∉ cl.map (fun e => e.1)) →
    expandNode gs cur c_id cl openset ms = .ok opfin →
    ((opfin.map (fun e => e.1)).Nodup ∧
      (∀ k ∈ opfin.map (fun e => e.1), k ∉ cl.map (fun e => e.1))) ∧
    (∀ e ∈ opfin, e ∈ openset ∨
      ∃ m ∈ ms, e = (gs.calc_index (neighborNode cur c_id m), neighborNode cur c_id m) ∧
        gs.verify_node (neighborNode cur c_id m) = .ok true) ∧
    (∀ e ∈ openset, ∃ e2 ∈ opfin, e2.1 = e.1 ∧ e2.2.cost ≤ e.2.cost) ∧
    (∀ m ∈ ms, FreeCell gs (applyMove (cellOf cur) m) →
      gs.calc_index (neighborNode cur c_id m) ∈ cl.map (fun e => e.1) ∨
      ∃ e2 ∈ opfin, e2.1 = gs.calc_index (neighborNode cur c_id m) ∧
        e2.2.cost ≤ cur.cost + m.2.2) := by
  intro ms
  induction ms with
  | nil =>
    intro openset opfin hnd hdisj heq
    simp only [expandNode] at heq
    cases heq
    refine ⟨⟨hnd, hdisj⟩, fun e he => Or.inl he, fun e he => ⟨e, he, rfl, le_refl _⟩,
      fun m hm => absurd hm (List.not_mem_nil m)⟩
  | cons m ms ih =>
    intro openset opfin hnd hdisj heq
    simp only [expandNode] at heq
    by_cases hcl : (alistLookup cl (gs.calc_index (neighborNode cur c_id m))).isSome = true
    · rw [if_pos hcl] at heq
      obtain ⟨hkeys, hprov, hsurv, hrelax⟩ := ih openset opfin hnd hdisj heq
      refine ⟨hkeys, ?_, hsurv, ?_⟩
      · intro e he
        rcases hprov e he with he0 | ⟨m0, hm0, he0⟩
        · exact Or.inl he0
        · exact Or.inr ⟨m0, List.mem_cons_of_mem m hm0, he0⟩
      · intro m0 hm0 hfree
        rcases List.mem_cons.1 hm0 with heq0 | hm0
        · subst heq0
          exact Or.inl (alistLookup_isSome_iff.1 hcl)
        · exact hrelax m0 hm0 hfree
    · rw [if_neg hcl] at heq
      have hclnot : gs.calc_index (neighborNode cur c_id m) ∉ cl.map (fun e => e.1) := by
        intro hmem
        exact hcl (alistLookup_isSome_iff.2 hmem)
      cases hver : gs.verify_node (neighborNode cur c_id m) with
      | error e0 =>
        rw [hver] at heq
        exact absurd heq (by simp)
      | ok b =>
        cases b with
        | false =>
          rw [hver] at heq
          obtain ⟨hkeys, hprov, hsurv, hrelax⟩ := ih openset opfin hnd hdisj heq
          refine ⟨hkeys, ?_, hsurv, ?_⟩
          · intro e he
            rcases hprov e he with he0 | ⟨m0, hm0, he0⟩
            · exact Or.inl he0
            · exact Or.inr ⟨m0, List.mem_cons_of_mem m hm0, he0⟩
          · intro m0 hm0 hfree
            rcases List.mem_cons.1 hm0 with heq0 | hm0
            · subst heq0
              exfalso
              have hvt : gs.verify_node (neighborNode cur c_id m0) = .ok true := by
                rw [verify_node_only_cell]
                exact hfree
              rw [hvt] at hver
              exact Bool.noConfusion (Except.ok.inj hver)
            · exact hrelax m0 hm0 hfree
        | true =>
          rw [hver] at heq
          dsimp only at heq
          cases hlk : alistLookup openset (gs.calc_index (neighborNode cur c_id m)) with
          | none =>
            rw [hlk] at heq
            dsimp only at heq
            have hfreshnot : gs.calc_index (neighborNode cur c_id m) ∉
                openset.map (fun e => e.1) := by
              rw [← alistLookup_eq_none_iff]
              exact hlk
            have hnd1 : ((openset ++ [(gs.calc_index (neighborNode cur c_id m),
                neighborNode cur c_id m)]).map (fun e => e.1)).Nodup := by
              rw [List.map_append]
              refine List.Nodup.append hnd (by simp) ?_
              intro a ha hb
              simp only [List.map_cons, List.map_nil, List.mem_singleton] at hb
              rw [hb] at ha
              exact hfreshnot ha
            have hdisj1 : ∀ k ∈ ((openset ++ [(gs.calc_index (neighborNode cur c_id m),
                neighborNode cur c_id m)]).map (fun e => e.1)),
                k ∉ cl.map (fun e => e.1) := by
              intro k hk
              rw [List.map_append, List.mem_append] at hk
              rcases hk with hk | hk
              · exact hdisj k hk
              · simp only [List.map_cons, List.map_nil, List.mem_singleton] at hk
                rw [hk]
                exact hclnot
            obtain ⟨hkeys, hprov, hsurv, hrelax⟩ := ih _ opfin hnd1 hdisj1 heq
            refine ⟨hkeys, ?_, ?_, ?_⟩
            · intro e he
              rcases hprov e he with he0 | ⟨m0, hm0, he0⟩
              · rcases List.mem_append.1 he0 with he1 | he1
                · exact Or.inl he1
                · refine Or.inr ⟨m, List.mem_cons_self m ms, ?_, hver⟩
                  simpa using he1
              · exact Or.inr ⟨m0, List.mem_cons_of_mem m hm0, he0⟩
            · intro e he
              exact hsurv e (List.mem_append.2 (Or.inl he))
            · intro m0 hm0 hfree
              rcases List.mem_cons.1 hm0 with heq0 | hm0
              · subst heq0
                right
                obtain ⟨e2, he2, hk2, hc2⟩ :=
                  hsurv (gs.calc_index (neighborNode cur c_id m0), neighborNode cur c_id m0)
                    (List.mem_append.2 (Or.inr (by simp)))
                exact ⟨e2, he2, hk2, hc2⟩
              · exact hrelax m0 hm0 hfree
          | some old =>
            rw [hlk] at heq
            dsimp only at heq
            by_cases hless : (neighborNode cur c_id m).cost < old.cost
            · rw [if_pos hless] at heq
              have hmemk : gs.calc_index (neighborNode cur c_id m) ∈
                  openset.map (fun e => e.1) := by
                rw [← alistLookup_isSome_iff, hlk]
                rfl
              have hnd1 : ((alistUpdate openset (gs.calc_index (neighborNode cur c_id m))
                  (neighborNode cur c_id m)).map (fun e => e.1)).Nodup := by
                rw [alistUpdate_keys]
                exact hnd
              have hdisj1 : ∀ k ∈ ((alistUpdate openset
                  (gs.calc_index (neighborNode cur c_id m))
                  (neighborNode cur c_id m)).map (fun e => e.1)),
                  k ∉ cl.map (fun e => e.1) := by
                rw [alistUpdate_keys]
                exact hdisj
              obtain ⟨hkeys, hprov, hsurv, hrelax⟩ := ih _ opfin hnd1 hdisj1 heq
              refine ⟨hkeys, ?_, ?_, ?_⟩
              · intro e he
                rcases hprov e he with he0 | ⟨m0, hm0, he0⟩
                · rcases alistUpdate_mem he0 with he1 | ⟨he1, _⟩
                  · refine Or.inr ⟨m, List.mem_cons_self m ms, ?_, hver⟩
                    rw [he1]
                  · exact Or.inl he1
                · exact Or.inr ⟨m0, List.mem_cons_of_mem m hm0, he0⟩
              · intro e he
                by_cases hek : e.1 = gs.calc_index (neighborNode cur c_id m)
                · have hval : e.2 = old := by
                    have h1 := alistLookup_of_mem hnd (show (e.1, e.2) ∈ openset by
                      simpa using he)
                    rw [hek, hlk] at h1
                    exact (Option.some.inj h1).symm
                  obtain ⟨e2, he2, hk2, hc2⟩ := hsurv _
                    (show (gs.calc_index (neighborNode cur c_id m),
                        neighborNode cur c_id m) ∈ _ from
                      alistLookup_mem (alistUpdate_lookup_self _ hmemk))
                  refine ⟨e2, he2, by rw [hk2, hek], ?_⟩
                  refine le_trans hc2 ?_
                  rw [hval]
                  exact le_of_lt hless
                · have hmem1 : e ∈ alistUpdate openset
                      (gs.calc_index (neighborNode cur c_id m)) (neighborNode cur c_id m) := by
                    unfold alistUpdate
                    rcases e with ⟨ek, ev⟩
                    refine List.mem_map.2 ⟨(ek, ev), he, ?_⟩
                    rw [if_neg hek]
                  obtain ⟨e2, he2, hk2, hc2⟩ := hsurv e hmem1
                  exact ⟨e2, he2, hk2, hc2⟩
              · intro m0 hm0 hfree
                rcases List.mem_cons.1 hm0 with heq0 | hm0
                · subst heq0
                  right
                  obtain ⟨e2, he2, hk2, hc2⟩ :=
                    hsurv (gs.calc_index (neighborNode cur c_id m0), neighborNode cur c_id m0)
                      (alistLookup_mem (alistUpdate_lookup_self _ hmemk))
                  exact ⟨e2, he2, hk2, le_trans hc2 (le_refl _)⟩
                · exact hrelax m0 hm0 hfree
            · rw [if_neg hless] at heq
              obtain ⟨hkeys, hprov, hsurv, hrelax⟩ := ih openset opfin hnd hdisj heq
              refine ⟨hkeys, ?_, hsurv, ?_⟩
              · intro e he
                rcases hprov e he with he0 | ⟨m0, hm0, he0⟩
                · exact Or.inl he0
                · exact Or.inr ⟨m0, List.mem_cons_of_mem m hm0, he0⟩
              · intro m0 hm0 hfree
                rcases List.mem_cons.1 hm0 with heq0 | hm0
                · subst heq0
                  right
                  have hold : (gs.calc_index (neighborNode cur c_id m0), old) ∈ openset :=
                    alistLookup_mem hlk
                  obtain ⟨e2, he2, hk2, hc2⟩ := hsurv _ hold
                  refine ⟨e2, he2, hk2, le_trans hc2 ?_⟩
                  exact le_of_not_lt hless
                · exact hrelax m0 hm0 hfree

/-! ### Selection from the frontier: first minimum wins -/

/-- The fold underlying `selectMin`. -/
def minFold (b : ℤ × Node) (es : List (ℤ × Node)) : ℤ × Node :=
  es.foldl (fun best c => if c.2.cost < best.2.cost then c else best) b

theorem minFold_spec (es : List (ℤ × Node)) : ∀ b : ℤ × Node,
    (minFold b es = b ∧ ∀ x ∈ es, b.2.cost ≤ x.2.cost) ∨
    (∃ l1 l2, es = l1 ++ minFold b es :: l2 ∧ (minFold b es).2.cost < b.2.cost ∧
      (∀ x ∈ l1, (minFold b es).2.cost < x.2.cost) ∧
      (∀ x ∈ l2, (minFold b es).2.cost ≤ x.2.cost)) := by
  induction es with
  | nil => exact fun b => Or.inl ⟨rfl, by simp⟩
  | cons c es ih =>
    intro b
    by_cases hc : c.2.cost < b.2.cost
    · have hfold : minFold b (c :: es) = minFold c es := by
        unfold minFold
        simp only [List.foldl_cons, if_pos hc]
      rw [hfold]
      rcases ih c with ⟨hr, hall⟩ | ⟨l1, l2, hes, hlt, h1, h2⟩
      · refine Or.inr ⟨[], es, ?_, ?_, by simp, ?_⟩
        · rw [hr, List.nil_append]
        · rw [hr]
          exact hc
        · intro x hx
          rw [hr]
          exact hall x hx
      · refine Or.inr ⟨c :: l1, l2, ?_, lt_trans hlt hc, ?_, h2⟩
        · rw [List.cons_append, ← hes]
        · intro x hx
          rcases List.mem_cons.1 hx with rfl | hx
          · exact hlt
          · exact h1 x hx
    · have hfold : minFold b (c :: es) = minFold b es := by
        unfold minFold
        simp only [List.foldl_cons, if_neg hc]
      rw [hfold]
      rcases ih b with ⟨hr, hall⟩ | ⟨l1, l2, hes, hlt, h1, h2⟩
      · refine Or.inl ⟨hr, ?_⟩
        intro x hx
        rcases List.mem_cons.1 hx with rfl | hx
        · exact le_of_not_lt hc
        · exact hall x hx
      · refine Or.inr ⟨c :: l1, l2, ?_, hlt, ?_, h2⟩
        · rw [List.cons_append, ← hes]
        · intro x hx
          rcases List.mem_cons.1 hx with rfl | hx
          · exact lt_of_lt_of_le hlt (le_of_not_lt hc)
          · exact h1 x hx

/-- `min(openset, key=...)` returns the earliest-inserted entry among those
of minimal cost: the list splits around the selected entry with all earlier
entries strictly more expensive and all later entries at least as expensive. -/
theorem selectMin_split {l : List (ℤ × Node)} {e : ℤ × Node} (h : selectMin l = some e) :
    ∃ l1 l2, l = l1 ++ e :: l2 ∧ (∀ x ∈ l1, e.2.cost < x.2.cost) ∧
      (∀ x ∈ l2, e.2.cost ≤ x.2.cost) := by
  cases l with
  | nil => exact absurd h (by simp [selectMin])
  | cons b es =>
    have he : minFold b es = e := by
      have : selectMin (b :: es) = some (minFold b es) := rfl
      rw [this] at h
      exact Option.some.inj h
    rcases minFold_spec es b with ⟨hr, hall⟩ | ⟨l1, l2, hes, hlt, h1, h2⟩
    · refine ⟨[], es, ?_, by simp, ?_⟩
      · rw [← he, hr, List.nil_append]
      · intro x hx
        rw [← he, hr]
        exact hall x hx
    · rw [he] at hes hlt h1 h2
      refine ⟨b :: l1, l2, ?_, ?_, h2⟩
      · rw [List.cons_append, ← hes]
      · intro x hx
        rcases List.mem_cons.1 hx with rfl | hx
        · exact hlt
        · exact h1 x hx

theorem selectMin_mem {l : List (ℤ × Node)} {e : ℤ × Node} (h : selectMin l = some e) :
    e ∈ l := by
  obtain ⟨l1, l2, hsplit, _, _⟩ := selectMin_split h
  rw [hsplit]
  exact List.mem_append.2 (Or.inr (List.mem_cons_self _ _))

theorem selectMin_min {l : List (ℤ × Node)} {e : ℤ × Node} (h : selectMin l = some e) :
    ∀ x ∈ l, e.2.cost ≤ x.2.cost := by
  obtain ⟨l1, l2, hsplit, h1, h2⟩ := selectMin_split h
  intro x hx
  rw [hsplit] at hx
  rcases List.mem_append.1 hx with hx | hx
  · exact le_of_lt (h1 x hx)
  · rcases List.mem_cons.1 hx with rfl | hx
    · exact le_refl _
    · exact h2 x hx

theorem selectMin_none_iff {l : List (ℤ × Node)} : selectMin l = none ↔ l = [] := by
  cases l <;> simp [selectMin]

/-! ### One iteration of the search loop: inversion and key discipline -/

/-- Inversion of a `next` outcome of one loop iteration. -/
theorem stepLoop_next_inv {gs : GraphSearch} {ngoal : Node} {st st2 : LoopState}
    (h : stepLoop gs ngoal st = .next st2) :
    ∃ c_id cur open2, selectMin st.openset = some (c_id, cur) ∧
      ¬ (cur.x = ngoal.x ∧ cur.y = ngoal.y) ∧
      expandNode gs cur c_id (st.closedset ++ [(c_id, cur)]) (alistErase st.openset c_id)
        motionModel = .ok open2 ∧
      st2 = ⟨open2, st.closedset ++ [(c_id, cur)],
        st.expansion ++ [(gs.calc_position cur.x gs.minx, gs.calc_position cur.y gs.miny)]⟩ := by
  unfold stepLoop at h
  cases hsel : selectMin st.openset with
  | none =>
    rw [hsel] at h
    exact absurd h (by simp)
  | some e =>
    rcases e with ⟨c_id, cur⟩
    rw [hsel] at h
    dsimp only at h
    by_cases hgoal : cur.x = ngoal.x ∧ cur.y = ngoal.y
    · rw [if_pos hgoal] at h
      exact absurd h (by simp)
    · rw [if_neg hgoal] at h
      cases hexp : expandNode gs cur c_id (st.closedset ++ [(c_id, cur)])
          (alistErase st.openset c_id) motionModel with
      | error e0 =>
        rw [hexp] at h
        exact absurd h (by simp)
      | ok open2 =>
        rw [hexp] at h
        dsimp only at h
        refine ⟨c_id, cur, open2, rfl, hgoal, hexp, ?_⟩
        cases h
        rfl

/-- Inversion of a `found` outcome of one loop iteration. -/
theorem stepLoop_found_inv {gs : GraphSearch} {ngoal ng : Node} {st : LoopState}
    {cl : List (ℤ × Node)} {ex : List (ℚ × ℚ)}
    (h : stepLoop gs ngoal st = .found ng cl ex) :
    ∃ c_id cur, selectMin st.openset = some (c_id, cur) ∧
      cur.x = ngoal.x ∧ cur.y = ngoal.y ∧
      ng = ⟨ngoal.x, ngoal.y, cur.cost, cur.pind⟩ ∧ cl = st.closedset ∧
      ex = st.expansion ++
        [(gs.calc_position cur.x gs.minx, gs.calc_position cur.y gs.miny)] := by
  unfold stepLoop at h
  cases hsel : selectMin st.openset with
  | none =>
    rw [hsel] at h
    exact absurd h (by simp)
  | some e =>
    rcases e with ⟨c_id, cur⟩
    rw [hsel] at h
    dsimp only at h
    by_cases hgoal : cur.x = ngoal.x ∧ cur.y = ngoal.y
    · rw [if_pos hgoal] at h
      refine ⟨c_id, cur, rfl, hgoal.1, hgoal.2, ?_⟩
      cases h
      exact ⟨rfl, rfl, rfl⟩
    · rw [if_neg hgoal] at h
      cases hexp : expandNode gs cur c_id (st.closedset ++ [(c_id, cur)])
          (alistErase st.openset c_id) motionModel with
      | error e0 =>
        rw [hexp] at h
        exact absurd h (by simp)
      | ok open2 =>
        rw [hexp] at h
        exact absurd h (by simp)

/-- The key discipline maintained by the loop: keys are unique on each side
and never shared between the frontier and the closed set. -/
def KeysInv (st : LoopState) : Prop :=
  (st.openset.map (fun e => e.1)).Nodup ∧
  (st.closedset.map (fun e => e.1)).Nodup ∧
  ∀ k ∈ st.openset.map (fun e => e.1), k ∉ st.closedset.map (fun e => e.1)

instance (st : LoopState) : Decidable (KeysInv st) := by
  unfold KeysInv
  infer_instance

theorem keysInv_init (gs : GraphSearch) (sx sy : ℚ) : KeysInv (initState gs sx sy) := by
  refine ⟨by simp [initState], by simp [initState], ?_⟩
  intro k _
  simp [initState]

/-- One `next` step preserves the key discipline; moreover the closed keys
only grow and stay out of the frontier. -/
theorem stepLoop_keysInv {gs : GraphSearch} {ngoal : Node} {st st2 : LoopState}
    (hinv : KeysInv st) (h : stepLoop gs ngoal st = .next st2) :
    KeysInv st2 ∧
    (∀ k ∈ st.closedset.map (fun e => e.1), k ∈ st2.closedset.map (fun e => e.1)) ∧
    (∀ k ∈ st.closedset.map (fun e => e.1), k ∉ st2.openset.map (fun e => e.1)) := by
  obtain ⟨hndO, hndC, hdisj⟩ := hinv
  obtain ⟨c_id, cur, open2, hsel, hgoal, hexp, hst2⟩ := stepLoop_next_inv h
  have hcmem : c_id ∈ st.openset.map (fun e => e.1) :=
    List.mem_map.2 ⟨(c_id, cur), selectMin_mem hsel, rfl⟩
  have hcnotcl : c_id ∉ st.closedset.map (fun e => e.1) := hdisj c_id hcmem
  have hndC2 : ((st.closedset ++ [(c_id, cur)]).map (fun e => e.1)).Nodup := by
    rw [List.map_append]
    refine List.Nodup.append hndC (by simp) ?_
    intro a ha hb
    simp only [List.map_cons, List.map_nil, List.mem_singleton] at hb
    rw [hb] at ha
    exact hcnotcl ha
  have hndE : ((alistErase st.openset c_id).map (fun e => e.1)).Nodup := by
    rw [alistErase_keys]
    exact List.Nodup.filter _ hndO
  have hdisjE : ∀ k ∈ (alistErase st.openset c_id).map (fun e => e.1),
      k ∉ (st.closedset ++ [(c_id, cur)]).map (fun e => e.1) := by
    intro k hk
    rw [alistErase_keys, List.mem_filter] at hk
    obtain ⟨hk1, hk2⟩ := hk
    rw [List.map_append, List.mem_append]
    rintro (hmem | hmem)
    · exact hdisj k hk1 hmem
    · simp only [List.map_cons, List.map_nil, List.mem_singleton] at hmem
      rw [hmem] at hk2
      simp at hk2
  obtain ⟨⟨hnd2, hdisj2⟩, _, _, _⟩ :=
    expandNode_spec gs cur c_id (st.closedset ++ [(c_id, cur)]) motionModel
      (alistErase st.openset c_id) open2 hndE hdisjE hexp
  subst hst2
  refine ⟨⟨hnd2, hndC2, hdisj2⟩, ?_, ?_⟩
  · intro k hk
    rw [List.map_append, List.mem_append]
    exact Or.inl hk
  · intro k hk hk2
    have := hdisj2 k hk2
    rw [List.map_append, List.mem_append] at this
    push_neg at this
    exact this.1 hk

/-! ### The full loop invariant: parent chains, optimal closed costs,
expanded frontiers -/

/-- The parent data a node stored in the loop's sets satisfies: either it is
the start node (sentinel parent, cost 0), or its parent id is the key of an
earlier closed entry one motion away at the accumulated cost. `bound` caps
the parent's position in the closed list. -/
def NodeChain (gs : GraphSearch) (start : ℤ × ℤ) (cl : List (ℤ × Node))
    (bound : ℕ) (n : Node) : Prop :=
  (n.pind = -1 ∧ cellOf n = start ∧ n.cost = 0) ∨
  (∃ j, j < bound ∧ ∃ pe, cl.get? j = some pe ∧ pe.1 = n.pind ∧
    ∃ m ∈ motionModel, cellOf n = applyMove (cellOf pe.2) m ∧ n.cost = pe.2.cost + m.2.2)

theorem nodeChain_congr {gs : GraphSearch} {start : ℤ × ℤ} {cl : List (ℤ × Node)}
    {bound : ℕ} {n n2 : Node} (hp : n2.pind = n.pind) (hc : cellOf n2 = cellOf n)
    (hco : n2.cost = n.cost) (h : NodeChain gs start cl bound n) :
    NodeChain gs start cl bound n2 := by
  unfold NodeChain at h ⊢
  rw [hp, hc, hco]
  exact h

theorem nodeChain_mono {gs : GraphSearch} {start : ℤ × ℤ} {cl tl : List (ℤ × Node)}
    {bound bound2 : ℕ} {n : Node} (hb : bound ≤ bound2) (hbl : bound ≤ cl.length)
    (h : NodeChain gs start cl bound n) : NodeChain gs start (cl ++ tl) bound2 n := by
  rcases h with h | ⟨j, hj, pe, hget, hrest⟩
  · exact Or.inl h
  · refine Or.inr ⟨j, lt_of_lt_of_le hj hb, pe, ?_, hrest⟩
    rw [List.get?_append (lt_of_lt_of_le hj hbl)]
    exact hget

/-- The invariant of the `while 1` loop (beyond the key discipline): every
stored entry is keyed by its cell's linear id, sits on a free cell, and
carries consistent parent data; closed costs are optimal; closed nodes are
fully expanded; the start is tracked. -/
structure LoopInv (gs : GraphSearch) (start : ℤ × ℤ) (st : LoopState) : Prop where
  keys : KeysInv st
  keyO : ∀ e ∈ st.openset, e.1 = gs.calc_index e.2
  keyC : ∀ e ∈ st.closedset, e.1 = gs.calc_index e.2
  freeO : ∀ e ∈ st.openset, FreeCell gs (cellOf e.2)
  freeC : ∀ e ∈ st.closedset, FreeCell gs (cellOf e.2)
  chainO : ∀ e ∈ st.openset, NodeChain gs start st.closedset st.closedset.length e.2
  chainC : ∀ j pe, st.closedset.get? j = some pe →
    NodeChain gs start st.closedset j pe.2
  lbC : ∀ e ∈ st.closedset, ∀ ms, ValidPath gs start ms →
    pathEnd start ms = cellOf e.2 → e.2.cost ≤ pathCost ms
  expC : ∀ e ∈ st.closedset, ∀ m ∈ motionModel,
    FreeCell gs (applyMove (cellOf e.2) m) →
    (∃ e2 ∈ st.closedset, cellOf e2.2 = applyMove (cellOf e.2) m) ∨
    (∃ e2 ∈ st.openset, cellOf e2.2 = applyMove (cellOf e.2) m ∧
      e2.2.cost ≤ e.2.cost + m.2.2)
  startT : (∃ e ∈ st.openset, cellOf e.2 = start ∧ e.2.cost = 0) ∨
    (∃ e ∈ st.closedset, cellOf e.2 = start)

/-- Linear ids of free cells are injective (they index a well-formed map). -/
theorem freeCell_index_inj {gs : GraphSearch} (hreso : 0 < gs.reso)
    (hdims : ObmapDims gs) {c1 c2 : ℤ × ℤ} (h1 : FreeCell gs c1) (h2 : FreeCell gs c2)
    (h : cellIndex gs c1 = cellIndex gs c2) : c1 = c2 := by
  obtain ⟨hx1, hw1, _, _, _⟩ := freeCell_bounds hreso hdims h1
  obtain ⟨hx2, hw2, _, _, _⟩ := freeCell_bounds hreso hdims h2
  exact cellIndex_inj ⟨hx1, hw1⟩ ⟨hx2, hw2⟩ h

/-- In a list with unique keys, membership determines the value. -/
theorem mem_key_unique {l : List (ℤ × Node)} (hnd : (l.map (fun e => e.1)).Nodup)
    {k : ℤ} {v1 v2 : Node} (h1 : (k, v1) ∈ l) (h2 : (k, v2) ∈ l) : v1 = v2 := by
  have e1 := alistLookup_of_mem hnd h1
  have e2 := alistLookup_of_mem hnd h2
  rw [e1] at e2
  exact Option.some.inj e2

/-- Every closed entry's cost is realized by a valid path recorded in its
parent chain. -/
theorem chainC_realizable {gs : GraphSearch} {start : ℤ × ℤ} {cl : List (ℤ × Node)}
    (hstart : FreeCell gs start) (freeC : ∀ e ∈ cl, FreeCell gs (cellOf e.2))
    (chainC : ∀ j pe, cl.get? j = some pe → NodeChain gs start cl j pe.2) :
    ∀ j pe, cl.get? j = some pe →
      ∃ ms, ValidPath gs start ms ∧ pathEnd start ms = cellOf pe.2 ∧
        pathCost ms = pe.2.cost := by
  intro j
  induction j using Nat.strong_induction_on with
  | _ j ih =>
    intro pe hget
    rcases chainC j pe hget with ⟨_, hcell, hcost⟩ | ⟨i, hij, pe2, hget2, _, m, hm, hcell, hcost⟩
    · refine ⟨[], hstart, ?_, ?_⟩
      · rw [pathEnd_nil, hcell]
      · rw [pathCost_nil, hcost]
    · obtain ⟨ms, hv, he, hc⟩ := ih i hij pe2 hget2
      have hfree : FreeCell gs (cellOf pe.2) := freeC pe (List.get?_mem hget)
      have hfree2 : FreeCell gs (applyMove (pathEnd start ms) m) := by
        rw [he, ← hcell]
        exact hfree
      refine ⟨ms ++ [m], validPath_append_one hv hm hfree2, ?_, ?_⟩
      · rw [pathEnd_append_one, he, ← hcell]
      · rw [pathCost_append, hc, hcost]
        simp [pathCost]

/-- Any node with consistent parent data on a free cell is realized by a
valid path. -/
theorem nodeChain_realizable {gs : GraphSearch} {start : ℤ × ℤ} {cl : List (ℤ × Node)}
    (hstart : FreeCell gs start) (freeC : ∀ e ∈ cl, FreeCell gs (cellOf e.2))
    (chainC : ∀ j pe, cl.get? j = some pe → NodeChain gs start cl j pe.2)
    {bound : ℕ} {n : Node} (hn : NodeChain gs start cl bound n)
    (hfree : FreeCell gs (cellOf n)) :
    ∃ ms, ValidPath gs start ms ∧ pathEnd start ms = cellOf n ∧ pathCost ms = n.cost := by
  rcases hn with ⟨_, hcell, hcost⟩ | ⟨i, _, pe2, hget2, _, m, hm, hcell, hcost⟩
  · refine ⟨[], hstart, ?_, ?_⟩
    · rw [pathEnd_nil, hcell]
    · rw [pathCost_nil, hcost]
  · obtain ⟨ms, hv, he, hc⟩ := chainC_realizable hstart freeC chainC i pe2 hget2
    have hfree2 : FreeCell gs (applyMove (pathEnd start ms) m) := by
      rw [he, ← hcell]
      exact hfree
    refine ⟨ms ++ [m], validPath_append_one hv hm hfree2, ?_, ?_⟩
    · rw [pathEnd_append_one, he, ← hcell]
    · rw [pathCost_append, hc, hcost]
      simp [pathCost]

theorem validPath_cost_nonneg {gs : GraphSearch} {start : ℤ × ℤ}
    {ms : List (ℤ × ℤ × Cost)} (h : ValidPath gs start ms) : (0 : Cost) ≤ pathCost ms :=
  pathCost_nonneg (validPath_moves h)

/-- Costs stored in the loop state are non-negative. -/
theorem loopInv_cost_nonneg {gs : GraphSearch} {start : ℤ × ℤ} {st : LoopState}
    (hstart : FreeCell gs start) (inv : LoopInv gs start st) :
    (∀ e ∈ st.openset, (0 : Cost) ≤ e.2.cost) ∧
    (∀ e ∈ st.closedset, (0 : Cost) ≤ e.2.cost) := by
  constructor
  · intro e he
    obtain ⟨ms, hv, _, hc⟩ := nodeChain_realizable hstart inv.freeC inv.chainC
      (inv.chainO e he) (inv.freeO e he)
    rw [← hc]
    exact validPath_cost_nonneg hv
  · intro e he
    have hj := List.get_of_mem he
    obtain ⟨i, rfl⟩ := hj
    obtain ⟨ms, hv, _, hc⟩ := chainC_realizable hstart inv.freeC inv.chainC i _
      (List.get?_eq_get i.2)
    rw [← hc]
    exact validPath_cost_nonneg hv

/-- The frontier cuts every valid path to a cell not yet closed: some open
entry sits on the path with recorded cost at most the prefix cost. -/
theorem path_cut {gs : GraphSearch} {start : ℤ × ℤ} {st : LoopState}
    (inv : LoopInv gs start st) :
    ∀ (ms : List (ℤ × ℤ × Cost)) (z : ℤ × ℤ), ValidPath gs start ms →
      pathEnd start ms = z → (∀ e ∈ st.closedset, cellOf e.2 ≠ z) →
      ∃ e ∈ st.openset, ∃ ms1 ms2, ms = ms1 ++ ms2 ∧
        pathEnd start ms1 = cellOf e.2 ∧ e.2.cost ≤ pathCost ms1 := by
  intro ms
  induction ms using List.reverseRecOn with
  | nil =>
    intro z hv hend hnc
    rcases inv.startT with ⟨e, he, hcell, hcost⟩ | ⟨e, he, hcell⟩
    · refine ⟨e, he, [], [], rfl, ?_, ?_⟩
      · rw [pathEnd_nil, hcell]
      · rw [pathCost_nil, hcost]
    · exfalso
      rw [pathEnd_nil] at hend
      exact hnc e he (hcell.trans hend)
  | append_singleton ms m ih =>
    intro z hv hend hnc
    obtain ⟨hv1, hm⟩ := validPath_snoc_elim hv
    have hzfree : FreeCell gs z := by
      rw [← hend]
      exact validPath_free_end hv
    by_cases hw : ∃ e ∈ st.closedset, cellOf e.2 = pathEnd start ms
    · obtain ⟨e, he, hcell⟩ := hw
      have hfree2 : FreeCell gs (applyMove (cellOf e.2) m) := by
        rw [hcell, ← pathEnd_append_one, hend]
        exact hzfree
      rcases inv.expC e he m hm hfree2 with ⟨e2, he2, hcell2⟩ | ⟨e2, he2, hcell2, hcost2⟩
      · exfalso
        refine hnc e2 he2 ?_
        rw [hcell2, hcell, ← pathEnd_append_one, hend]
      · refine ⟨e2, he2, ms ++ [m], [], (List.append_nil _).symm, ?_, ?_⟩
        · rw [pathEnd_append_one, hcell2, hcell]
        · have hlb := inv.lbC e he ms hv1 hcell.symm
          have : e.2.cost + m.2.2 ≤ pathCost ms + m.2.2 := cost_add_le_right hlb _
          refine le_trans hcost2 (le_trans this ?_)
          rw [pathCost_append]
          simp [pathCost]
    · push_neg at hw
      obtain ⟨e, he, ms1, ms2, hsplit, hend1, hcost1⟩ :=
        ih (pathEnd start ms) hv1 rfl hw
      refine ⟨e, he, ms1, ms2 ++ [m], ?_, hend1, hcost1⟩
      rw [← List.append_assoc, ← hsplit]

/-- When an entry is selected from the frontier, its cost is a lower bound
on the cost of every valid path to its cell (the Dijkstra pop property). -/
theorem pop_min_optimal {gs : GraphSearch} {start : ℤ × ℤ} {st : LoopState}
    (hreso : 0 < gs.reso) (hdims : ObmapDims gs)
    (inv : LoopInv gs start st) {c_id : ℤ} {cur : Node}
    (hsel : selectMin st.openset = some (c_id, cur)) :
    ∀ ms, ValidPath gs start ms → pathEnd start ms = cellOf cur →
      cur.cost ≤ pathCost ms := by
  intro ms hv hend
  have hcur : (c_id, cur) ∈ st.openset := selectMin_mem hsel
  have hcurfree : FreeCell gs (cellOf cur) := inv.freeO (c_id, cur) hcur
  have hnc : ∀ e ∈ st.closedset, cellOf e.2 ≠ cellOf cur := by
    intro e he hcell
    have hk1 : e.1 = gs.calc_index e.2 := inv.keyC e he
    have hk2 : c_id = gs.calc_index cur := inv.keyO (c_id, cur) hcur
    have : e.1 = c_id := by
      rw [hk1, hk2, calc_index_eq_cellIndex, calc_index_eq_cellIndex, hcell]
    have hOmem : c_id ∈ st.openset.map (fun e => e.1) :=
      List.mem_map.2 ⟨(c_id, cur), hcur, rfl⟩
    have hCmem : c_id ∈ st.closedset.map (fun e => e.1) := by
      rw [← this]
      exact List.mem_map.2 ⟨e, he, rfl⟩
    exact inv.keys.2.2 c_id hOmem hCmem
  obtain ⟨e, he, ms1, ms2, hsplit, hend1, hcost1⟩ := path_cut inv ms (cellOf cur) hv hend hnc
  have hmin : cur.cost ≤ e.2.cost := selectMin_min hsel e he
  have hms2 : (0 : Cost) ≤ pathCost ms2 := by
    refine pathCost_nonneg ?_
    intro x hx
    exact validPath_moves hv x (by rw [hsplit]; exact List.mem_append.2 (Or.inr hx))
  refine le_trans hmin (le_trans hcost1 ?_)
  rw [hsplit, pathCost_append]
  exact cost_le_add_of_nonneg hms2

theorem freeCell_of_verify {gs : GraphSearch} {n : Node}
    (h : gs.verify_node n = .ok true) : FreeCell gs (cellOf n) := by
  show gs.verify_node ⟨n.x, n.y, 0, -1⟩ = .ok true
  rw [← verify_node_only_cell]
  exact h

theorem loopInv_init {gs : GraphSearch} (sx sy : ℚ)
    (hstart : FreeCell gs (cellOf (startNode gs sx sy))) :
    LoopInv gs (cellOf (startNode gs sx sy)) (initState gs sx sy) := by
  refine ⟨keysInv_init gs sx sy, ?_, ?_, ?_, ?_, ?_, ?_, ?_, ?_, ?_⟩
  · intro e he
    simp only [initState, List.mem_singleton] at he
    rw [he]
  · intro e he
    simp [initState] at he
  · intro e he
    simp only [initState, List.mem_singleton] at he
    rw [he]
    exact hstart
  · intro e he
    simp [initState] at he
  · intro e he
    simp only [initState, List.mem_singleton] at he
    rw [he]
    exact Or.inl ⟨rfl, rfl, rfl⟩
  · intro j pe hget
    simp [initState, List.get?] at hget
  · intro e he
    simp [initState] at he
  · intro e he
    simp [initState] at he
  · refine Or.inl ⟨(gs.calc_index (startNode gs sx sy), startNode gs sx sy), ?_, rfl, rfl⟩
    simp [initState]

/-- The main preservation theorem: one `next` iteration of the search loop
preserves the full invariant. -/
theorem loopInv_step {gs : GraphSearch} {start : ℤ × ℤ} {ngoal : Node}
    {st st2 : LoopState} (hreso : 0 < gs.reso) (hdims : ObmapDims gs)
    (hstart : FreeCell gs start) (inv : LoopInv gs start st)
    (h : stepLoop gs ngoal st = .next st2) : LoopInv gs start st2 := by
  have keysfacts := stepLoop_keysInv inv.keys h
  obtain ⟨c_id, cur, open2, hsel, hgoal, hexp, hst2⟩ := stepLoop_next_inv h
  have hcur : (c_id, cur) ∈ st.openset := selectMin_mem hsel
  have hkeycur : c_id = gs.calc_index cur := inv.keyO (c_id, cur) hcur
  have hfreecur : FreeCell gs (cellOf cur) := inv.freeO (c_id, cur) hcur
  have hchaincur : NodeChain gs start st.closedset st.closedset.length cur :=
    inv.chainO (c_id, cur) hcur
  have hnonneg := loopInv_cost_nonneg hstart inv
  have hcnotcl : c_id ∉ st.closedset.map (fun e => e.1) :=
    inv.keys.2.2 c_id (List.mem_map.2 ⟨(c_id, cur), hcur, rfl⟩)
  have hndE : ((alistErase st.openset c_id).map (fun e => e.1)).Nodup := by
    rw [alistErase_keys]
    exact List.Nodup.filter _ inv.keys.1
  have hdisjE : ∀ k ∈ (alistErase st.openset c_id).map (fun e => e.1),
      k ∉ (st.closedset ++ [(c_id, cur)]).map (fun e => e.1) := by
    intro k hk
    rw [alistErase_keys, List.mem_filter] at hk
    obtain ⟨hk1, hk2⟩ := hk
    rw [List.map_append, List.mem_append]
    rintro (hmem | hmem)
    · exact inv.keys.2.2 k hk1 hmem
    · simp only [List.map_cons, List.map_nil, List.mem_singleton] at hmem
      rw [hmem] at hk2
      simp at hk2
  obtain ⟨⟨hnd2, hdisj2⟩, hprov, hsurv, hrelax⟩ :=
    expandNode_spec gs cur c_id (st.closedset ++ [(c_id, cur)]) motionModel
      (alistErase st.openset c_id) open2 hndE hdisjE hexp
  -- facts about the extended closed list
  have hlen2 : (st.closedset ++ [(c_id, cur)]).length = st.closedset.length + 1 := by simp
  have hgetlast : (st.closedset ++ [(c_id, cur)]).get? st.closedset.length =
      some (c_id, cur) := List.get?_concat_length _ _
  have hmem2 : ∀ e, e ∈ st.closedset ++ [(c_id, cur)] ↔
      e ∈ st.closedset ∨ e = (c_id, cur) := by
    intro e
    rw [List.mem_append, List.mem_singleton]
  -- derived facts about the new open set
  have keyO2 : ∀ e ∈ open2, e.1 = gs.calc_index e.2 := by
    intro e he
    rcases hprov e he with he0 | ⟨m, _, heq, _⟩
    · exact inv.keyO e (alistErase_mem.1 he0).1
    · rw [heq]
  have freeO2 : ∀ e ∈ open2, FreeCell gs (cellOf e.2) := by
    intro e he
    rcases hprov e he with he0 | ⟨m, _, heq, hver⟩
    · exact inv.freeO e (alistErase_mem.1 he0).1
    · rw [heq]
      exact freeCell_of_verify hver
  have nonnegO2 : ∀ e ∈ open2, (0 : Cost) ≤ e.2.cost := by
    intro e he
    rcases hprov e he with he0 | ⟨m, hm, heq, _⟩
    · exact hnonneg.1 e (alistErase_mem.1 he0).1
    · rw [heq]
      exact cost_add_nonneg (hnonneg.1 (c_id, cur) hcur) (motion_cost_nonneg m hm)
  have keyC2 : ∀ e ∈ st.closedset ++ [(c_id, cur)], e.1 = gs.calc_index e.2 := by
    intro e he
    rcases (hmem2 e).1 he with he0 | rfl
    · exact inv.keyC e he0
    · exact hkeycur
  have freeC2 : ∀ e ∈ st.closedset ++ [(c_id, cur)], FreeCell gs (cellOf e.2) := by
    intro e he
    rcases (hmem2 e).1 he with he0 | rfl
    · exact inv.freeC e he0
    · exact hfreecur
  -- cells with equal ids coincide (via key coherence)
  have cell_of_keyeq : ∀ (e1 e2 : ℤ × Node), e1.1 = gs.calc_index e1.2 →
      e2.1 = gs.calc_index e2.2 → FreeCell gs (cellOf e1.2) → FreeCell gs (cellOf e2.2) →
      e1.1 = e2.1 → cellOf e1.2 = cellOf e2.2 := by
    intro e1 e2 hk1 hk2 hf1 hf2 hkk
    refine freeCell_index_inj hreso hdims hf1 hf2 ?_
    rw [← calc_index_eq_cellIndex, ← calc_index_eq_cellIndex, ← hk1, ← hk2]
    exact hkk
  subst hst2
  refine ⟨keysfacts.1, keyO2, keyC2, freeO2, freeC2, ?_, ?_, ?_, ?_, ?_⟩
  · -- chainO
    intro e he
    rcases hprov e he with he0 | ⟨m, hm, heq, _⟩
    · refine nodeChain_mono (by simp) (le_refl _)
        (inv.chainO e (alistErase_mem.1 he0).1)
    · rw [heq]
      refine Or.inr ⟨st.closedset.length, ?_, (c_id, cur), hgetlast, rfl, m, hm, ?_, rfl⟩
      · rw [hlen2]
        omega
      · exact cellOf_neighborNode cur c_id m
  · -- chainC
    intro j pe hget
    by_cases hj : j < st.closedset.length
    · rw [List.get?_append hj] at hget
      exact nodeChain_mono (le_refl _) (le_of_lt hj) (inv.chainC j pe hget)
    · by_cases hj2 : j = st.closedset.length
      · subst hj2
        rw [hgetlast] at hget
        cases hget
        exact nodeChain_mono (le_refl _) (le_refl _) hchaincur
      · exfalso
        have hge : (st.closedset ++ [(c_id, cur)]).length ≤ j := by
          rw [hlen2]
          omega
        rw [List.get?_eq_none.2 hge] at hget
        exact Option.noConfusion hget
  · -- lbC
    intro e he ms hv hend
    rcases (hmem2 e).1 he with he0 | rfl
    · exact inv.lbC e he0 ms hv hend
    · exact pop_min_optimal hreso hdims inv hsel ms hv hend
  · -- expC
    intro e he m hm hfree
    rcases (hmem2 e).1 he with he0 | rfl
    · rcases inv.expC e he0 m hm hfree with ⟨e2, he2, hcell2⟩ | ⟨e2, he2, hcell2, hcost2⟩
      · exact Or.inl ⟨e2, (hmem2 e2).2 (Or.inl he2), hcell2⟩
      · by_cases he2c : e2.1 = c_id
        · have he2v : e2.2 = cur := by
            refine mem_key_unique inv.keys.1 ?_ hcur
            rw [← he2c]
            simpa using he2
          refine Or.inl ⟨(c_id, cur), (hmem2 _).2 (Or.inr rfl), ?_⟩
          show cellOf cur = _
          rw [← he2v]
          exact hcell2
        · have he2e : e2 ∈ alistErase st.openset c_id := alistErase_mem.2 ⟨he2, he2c⟩
          obtain ⟨e3, he3, hk3, hc3⟩ := hsurv e2 he2e
          refine Or.inr ⟨e3, he3, ?_, le_trans hc3 hcost2⟩
          rw [← hcell2]
          exact cell_of_keyeq e3 e2 (keyO2 e3 he3) (inv.keyO e2 he2) (freeO2 e3 he3)
            (inv.freeO e2 he2) (by rw [hk3])
    · -- the newly closed node: relaxation completeness for its neighbours
      have hfree2 : FreeCell gs (applyMove (cellOf cur) m) := hfree
      rcases hrelax m hm hfree2 with hmem | ⟨e2, he2, hk2, hc2⟩
      · obtain ⟨e2, he2, hk2⟩ := List.mem_map.1 hmem
        refine Or.inl ⟨e2, he2, ?_⟩
        have hnd : cellOf (neighborNode cur c_id m) = applyMove (cellOf cur) m :=
          cellOf_neighborNode cur c_id m
        have : cellOf e2.2 = cellOf (neighborNode cur c_id m) := by
          refine freeCell_index_inj hreso hdims (freeC2 e2 he2) ?_ ?_
          · rw [hnd]
            exact hfree2
          · rw [← calc_index_eq_cellIndex, ← calc_index_eq_cellIndex, ← keyC2 e2 he2, hk2]
        rw [this, hnd]
      · refine Or.inr ⟨e2, he2, ?_, hc2⟩
        have hnd : cellOf (neighborNode cur c_id m) = applyMove (cellOf cur) m :=
          cellOf_neighborNode cur c_id m
        have : cellOf e2.2 = cellOf (neighborNode cur c_id m) := by
          refine freeCell_index_inj hreso hdims (freeO2 e2 he2) ?_ ?_
          · rw [hnd]
            exact hfree2
          · rw [← calc_index_eq_cellIndex, ← calc_index_eq_cellIndex, ← keyO2 e2 he2, hk2]
        rw [this, hnd]
  · -- startT
    rcases inv.startT with ⟨e, he, hcell, hcost⟩ | ⟨e, he, hcell⟩
    · by_cases hec : e.1 = c_id
      · have hev : e.2 = cur := by
          refine mem_key_unique inv.keys.1 ?_ hcur
          rw [← hec]
          simpa using he
        refine Or.inr ⟨(c_id, cur), (hmem2 _).2 (Or.inr rfl), ?_⟩
        show cellOf cur = start
        rw [← hev]
        exact hcell
      · have hee : e ∈ alistErase st.openset c_id := alistErase_mem.2 ⟨he, hec⟩
        obtain ⟨e3, he3, hk3, hc3⟩ := hsurv e hee
        refine Or.inl ⟨e3, he3, ?_, ?_⟩
        · rw [← hcell]
          exact cell_of_keyeq e3 e (keyO2 e3 he3) (inv.keyO e he) (freeO2 e3 he3)
            (inv.freeO e he) (by rw [hk3])
        · refine le_antisymm ?_ (nonnegO2 e3 he3)
          rw [← hcost]
          exact hc3
    · exact Or.inr ⟨e, (hmem2 e).2 (Or.inl he), hcell⟩

/-! ### Running the loop to the goal, and reconstructing the path -/

/-- Everything known about a successful search-loop run from an invariant
state: the returned closed set still satisfies the closed-set invariants,
and the returned goal node carries consistent parent data, sits on the goal
cell, and its cost is a lower bound on every valid path to that cell. -/
theorem searchLoop_ok_facts {gs : GraphSearch} {start : ℤ × ℤ} {ngoal : Node}
    (hreso : 0 < gs.reso) (hdims : ObmapDims gs) (hstart : FreeCell gs start) :
    ∀ (fuel : ℕ) (st : LoopState) (ng : Node) (cl : List (ℤ × Node)) (ex : List (ℚ × ℚ)),
    LoopInv gs start st →
    searchLoop gs ngoal fuel st = some (.ok (ng, cl, ex)) →
    ((cl.map (fun e => e.1)).Nodup ∧
      (∀ e ∈ cl, e.1 = gs.calc_index e.2) ∧
      (∀ e ∈ cl, FreeCell gs (cellOf e.2)) ∧
      (∀ j pe, cl.get? j = some pe → NodeChain gs start cl j pe.2)) ∧
    NodeChain gs start cl cl.length ng ∧
    cellOf ng = (ngoal.x, ngoal.y) ∧
    FreeCell gs (cellOf ng) ∧
    (∀ ms, ValidPath gs start ms → pathEnd start ms = cellOf ng →
      ng.cost ≤ pathCost ms) := by
  intro fuel
  induction fuel with
  | zero =>
    intro st ng cl ex _ heq
    exact absurd heq (by simp [searchLoop])
  | succ fuel ih =>
    intro st ng cl ex inv heq
    simp only [searchLoop] at heq
    cases hstep : stepLoop gs ngoal st with
    | raised e =>
      rw [hstep] at heq
      exact absurd heq (by simp)
    | found ng2 cl2 ex2 =>
      rw [hstep] at heq
      have h2 : (ng2, cl2, ex2) = (ng, cl, ex) := Except.ok.inj (Option.some.inj heq)
      have hng : ng2 = ng := congrArg Prod.fst h2
      have hcl : cl2 = cl := congrArg (fun q => q.2.1) h2
      have hex : ex2 = ex := congrArg (fun q => q.2.2) h2
      subst hng hcl hex
      obtain ⟨c_id, cur, hsel, hx, hy, hngdef, hcldef, _⟩ := stepLoop_found_inv hstep
      subst hcldef
      have hcur : (c_id, cur) ∈ st.openset := selectMin_mem hsel
      have hfreecur : FreeCell gs (cellOf cur) := inv.freeO (c_id, cur) hcur
      have hcellng : cellOf ng2 = cellOf cur := by
        rw [hngdef]
        show (ngoal.x, ngoal.y) = (cur.x, cur.y)
        rw [hx, hy]
      have hcostng : ng2.cost = cur.cost := by rw [hngdef]
      have hpindng : ng2.pind = cur.pind := by rw [hngdef]
      refine ⟨⟨inv.keys.2.1, inv.keyC, inv.freeC, inv.chainC⟩, ?_, ?_, ?_, ?_⟩
      · exact nodeChain_congr hpindng (by rw [hcellng]) hcostng
          (inv.chainO (c_id, cur) hcur)
      · rw [hngdef]
        rfl
      · rw [hcellng]
        exact hfreecur
      · intro ms hv hend
        rw [hcostng]
        refine pop_min_optimal hreso hdims inv hsel ms hv ?_
        rw [← hcellng]
        exact hend
    | next st2 =>
      rw [hstep] at heq
      exact ih st2 ng cl ex (loopInv_step hreso hdims hstart inv hstep) heq

/-- Reconstruction never faults and only visits closed cells: given the
parent chain discipline, `calc_final_path`'s loop returns the input
waypoints extended by positions of closed cells. -/
theorem finalPathLoop_cells {gs : GraphSearch} {cl : List (ℤ × Node)}
    (hnd : (cl.map (fun e => e.1)).Nodup)
    (hchain : ∀ j pe, cl.get? j = some pe → (pe.2.pind = -1 ∨
      ∃ i, i < j ∧ ∃ pe2, cl.get? i = some pe2 ∧ pe2.1 = pe.2.pind)) :
    ∀ (j : ℕ) (p : ℤ), (p = -1 ∨ ∃ i, i < j ∧ ∃ pe, cl.get? i = some pe ∧ pe.1 = p) →
    ∀ (fuel : ℕ), j < fuel → ∀ (rx ry : List ℚ), ∃ cs : List (ℤ × ℤ),
      finalPathLoop gs cl fuel p rx ry = some (.ok
        (rx ++ cs.map (fun c => gs.calc_position c.1 gs.minx),
          ry ++ cs.map (fun c => gs.calc_position c.2 gs.miny))) ∧
      ∀ c ∈ cs, ∃ e ∈ cl, cellOf e.2 = c := by
  intro j
  induction j using Nat.strong_induction_on with
  | _ j ih =>
    intro p hp fuel hfuel rx ry
    cases fuel with
    | zero => omega
    | succ f =>
      by_cases hp1 : p = -1
      · refine ⟨[], ?_, by simp⟩
        simp only [finalPathLoop, if_pos hp1, List.map_nil, List.append_nil]
      · rcases hp with hp | ⟨i, hij, pe, hget, hkey⟩
        · exact absurd hp hp1
        · have hpemem : pe ∈ cl := List.get?_mem hget
          have hlk : alistLookup cl p = some pe.2 := by
            refine alistLookup_of_mem hnd ?_
            rw [← hkey]
            simpa using hpemem
          rcases hchain i pe hget with hsent | ⟨i2, hi2, pe2, hget2, hkey2⟩
          · -- parent sentinel: one more step then stop
            obtain ⟨cs2, hres2, hcs2⟩ := ih i hij pe.2.pind (Or.inl hsent) f
              (by omega) (rx ++ [gs.calc_position pe.2.x gs.minx])
              (ry ++ [gs.calc_position pe.2.y gs.miny])
            refine ⟨cellOf pe.2 :: cs2, ?_, ?_⟩
            · simp only [finalPathLoop, if_neg hp1, hlk]
              rw [hres2]
              simp [cellOf]
            · intro c hc
              rcases List.mem_cons.1 hc with rfl | hc
              · exact ⟨pe, hpemem, rfl⟩
              · exact hcs2 c hc
          · obtain ⟨cs2, hres2, hcs2⟩ := ih i hij pe.2.pind
              (Or.inr ⟨i2, hi2, pe2, hget2, hkey2⟩) f (by omega)
              (rx ++ [gs.calc_position pe.2.x gs.minx])
              (ry ++ [gs.calc_position pe.2.y gs.miny])
            refine ⟨cellOf pe.2 :: cs2, ?_, ?_⟩
            · simp only [finalPathLoop, if_neg hp1, hlk]
              rw [hres2]
              simp [cellOf]
            · intro c hc
              rcases List.mem_cons.1 hc with rfl | hc
              · exact ⟨pe, hpemem, rfl⟩
              · exact hcs2 c hc

/-- Full reconstruction: when no closed key collides with the sentinel -1,
`calc_final_path`'s loop returns exactly the reversed cell sequence of a
valid path realizing the cost of the node it starts from. -/
theorem finalPathLoop_chain {gs : GraphSearch} {start : ℤ × ℤ} {cl : List (ℤ × Node)}
    (hnd : (cl.map (fun e => e.1)).Nodup) (hstart : FreeCell gs start)
    (freeC : ∀ e ∈ cl, FreeCell gs (cellOf e.2))
    (chainC : ∀ j pe, cl.get? j = some pe → NodeChain gs start cl j pe.2)
    (hclash : ∀ e ∈ cl, ¬ e.1 = -1) :
    ∀ (j : ℕ) (p : ℤ), (p = -1 ∨ ∃ i, i < j ∧ ∃ pe, cl.get? i = some pe ∧ pe.1 = p) →
    ∀ (fuel : ℕ), j < fuel → ∀ (rx ry : List ℚ),
      ∃ (cs : List (ℤ × ℤ)) (ms : List (ℤ × ℤ × Cost)),
      finalPathLoop gs cl fuel p rx ry = some (.ok
        (rx ++ cs.map (fun c => gs.calc_position c.1 gs.minx),
          ry ++ cs.map (fun c => gs.calc_position c.2 gs.miny))) ∧
      ValidPath gs start ms ∧
      ((p = -1 ∧ ms = [] ∧ cs = []) ∨
        (∃ v : Node, alistLookup cl p = some v ∧ pathEnd start ms = cellOf v ∧
          pathCost ms = v.cost ∧ cs = (pathCells start ms).reverse)) := by
  intro j
  induction j using Nat.strong_induction_on with
  | _ j ih =>
    intro p hp fuel hfuel rx ry
    cases fuel with
    | zero => omega
    | succ f =>
      by_cases hp1 : p = -1
      · refine ⟨[], [], ?_, hstart, Or.inl ⟨hp1, rfl, rfl⟩⟩
        simp only [finalPathLoop, if_pos hp1, List.map_nil, List.append_nil]
      · rcases hp with hp | ⟨i, hij, pe, hget, hkey⟩
        · exact absurd hp hp1
        · have hpemem : pe ∈ cl := List.get?_mem hget
          have hpefree : FreeCell gs (cellOf pe.2) := freeC pe hpemem
          have hlk : alistLookup cl p = some pe.2 := by
            refine alistLookup_of_mem hnd ?_
            rw [← hkey]
            simpa using hpemem
          rcases chainC i pe hget with ⟨hsent, hcell, hcost⟩ |
            ⟨i2, hi2, pe2, hget2, hkey2, m, hm, hcell, hcost⟩
          · -- the node at p is the start node: one step then stop
            obtain ⟨cs2, ms2, hres2, _, hdisj2⟩ := ih i hij pe.2.pind (Or.inl hsent) f
              (by omega) (rx ++ [gs.calc_position pe.2.x gs.minx])
              (ry ++ [gs.calc_position pe.2.y gs.miny])
            have hcs2nil : cs2 = [] := by
              rcases hdisj2 with ⟨_, _, h⟩ | ⟨v, hv, _⟩
              · exact h
              · exfalso
                rw [hsent] at hv
                have hm1 := alistLookup_mem hv
                exact hclash _ hm1 rfl
            refine ⟨[cellOf pe.2], [], ?_, hstart, Or.inr ⟨pe.2, hlk, ?_, ?_, ?_⟩⟩
            · simp only [finalPathLoop, if_neg hp1, hlk]
              rw [hres2, hcs2nil]
              simp [cellOf]
            · rw [pathEnd_nil, hcell]
            · rw [pathCost_nil, hcost]
            · rw [pathCells, hcell]
              rfl
          · -- interior node: recurse on its parent
            obtain ⟨cs2, ms2, hres2, hv2, hdisj2⟩ := ih i hij pe.2.pind
              (Or.inr ⟨i2, hi2, pe2, hget2, hkey2⟩) f (by omega)
              (rx ++ [gs.calc_position pe.2.x gs.minx])
              (ry ++ [gs.calc_position pe.2.y gs.miny])
            have hpe2ne : ¬ pe.2.pind = -1 := by
              rw [← hkey2]
              exact hclash pe2 (List.get?_mem hget2)
            rcases hdisj2 with ⟨hbad, _, _⟩ | ⟨v, hv, hend2, hcost2, hcs2⟩
            · exact absurd hbad hpe2ne
            · have hvval : v = pe2.2 := by
                have hl2 : alistLookup cl pe.2.pind = some pe2.2 := by
                  refine alistLookup_of_mem hnd ?_
                  rw [← hkey2]
                  simpa using List.get?_mem hget2
                rw [hl2] at hv
                exact (Option.some.inj hv).symm
              subst hvval
              have hfree2 : FreeCell gs (applyMove (pathEnd start ms2) m) := by
                rw [hend2, ← hcell]
                exact hpefree
              refine ⟨cellOf pe.2 :: cs2, ms2 ++ [m], ?_,
                validPath_append_one hv2 hm hfree2, Or.inr ⟨pe.2, hlk, ?_, ?_, ?_⟩⟩
              · simp only [finalPathLoop, if_neg hp1, hlk]
                rw [hres2]
                simp [cellOf]
              · rw [pathEnd_append_one, hend2, ← hcell]
              · rw [pathCost_append, hcost2, hcost]
                simp [pathCost]
              · rw [pathCells_append_one, List.reverse_append, hcs2]
                simp only [List.reverse_cons, List.reverse_nil, List.nil_append,
                  List.singleton_append]
                rw [hend2, ← hcell]

/-- Inversion of a successful `planning` call into its two phases. -/
theorem planning_ok_inv {gs : GraphSearch} {sx sy gx gy : ℚ} {fuel : ℕ}
    {rx ry : List ℚ} {ex : List (ℚ × ℚ)}
    (h : gs.planning sx sy gx gy fuel = some (.ok (rx, ry, ex))) :
    ∃ ng cl, searchLoop gs (startNode gs gx gy) fuel (initState gs sx sy) =
        some (.ok (ng, cl, ex)) ∧
      gs.calc_final_path ng cl = some (.ok (rx, ry)) := by
  unfold GraphSearch.planning at h
  dsimp only at h
  cases hsl : searchLoop gs (startNode gs gx gy) fuel (initState gs sx sy) with
  | none =>
    rw [hsl] at h
    exact absurd h (by simp)
  | some r =>
    rw [hsl] at h
    cases r with
    | error e => exact absurd h (by simp)
    | ok t =>
      rcases t with ⟨ng, cl, ex0⟩
      dsimp only at h
      cases hfp : gs.calc_final_path ng cl with
      | none =>
        rw [hfp] at h
        exact absurd h (by simp)
      | some r2 =>
        rw [hfp] at h
        cases r2 with
        | error e => exact absurd h (by simp)
        | ok t2 =>
          rcases t2 with ⟨rx0, ry0⟩
          dsimp only at h
          have h2 : ((rx0, ry0, ex0) : List ℚ × List ℚ × List (ℚ × ℚ)) = (rx, ry, ex) :=
            Except.ok.inj (Option.some.inj h)
          have hrx : rx0 = rx := congrArg Prod.fst h2
          have hry : ry0 = ry := congrArg (fun q => q.2.1) h2
          have hex : ex0 = ex := congrArg (fun q => q.2.2) h2
          subst hrx hry hex
          exact ⟨ng, cl, rfl, hfp⟩

/-- Master specification of a successful planning run: the returned waypoint
lists are exactly the reversed cell sequence of a valid 8-connected
obstacle-free path from the start cell to the goal cell whose cost is
minimal among all such paths. Requires the grid to be well-formed and no
linear cell id to collide with the parent sentinel -1. -/
theorem planning_success_spec {gs : GraphSearch} (hreso : 0 < gs.reso)
    (hdims : ObmapDims gs) {sx sy gx gy : ℚ} {fuel : ℕ}
    {rx ry : List ℚ} {ex : List (ℚ × ℚ)}
    (hstart : FreeCell gs (cellOf (startNode gs sx sy)))
    (hclash : ∀ c : ℤ × ℤ, FreeCell gs c → ¬ cellIndex gs c = -1)
    (hsucc : gs.planning sx sy gx gy fuel = some (.ok (rx, ry, ex))) :
    ∃ ms : List (ℤ × ℤ × Cost),
      ValidPath gs (cellOf (startNode gs sx sy)) ms ∧
      pathEnd (cellOf (startNode gs sx sy)) ms = cellOf (startNode gs gx gy) ∧
      rx = ((pathCells (cellOf (startNode gs sx sy)) ms).reverse).map
        (fun c => gs.calc_position c.1 gs.minx) ∧
      ry = ((pathCells (cellOf (startNode gs sx sy)) ms).reverse).map
        (fun c => gs.calc_position c.2 gs.miny) ∧
      (∀ ms2, ValidPath gs (cellOf (startNode gs sx sy)) ms2 →
        pathEnd (cellOf (startNode gs sx sy)) ms2 = cellOf (startNode gs gx gy) →
        pathCost ms ≤ pathCost ms2) := by
  obtain ⟨ng, cl, hsl, hfp⟩ := planning_ok_inv hsucc
  have inv0 := loopInv_init sx sy hstart
  obtain ⟨⟨hndC, keyC, freeC, chainC⟩, hchainng, hcellng, hfreeng, hopt⟩ :=
    searchLoop_ok_facts hreso hdims hstart fuel _ ng cl ex inv0 hsl
  have hgoalcell : cellOf ng = cellOf (startNode gs gx gy) := hcellng
  have hclash2 : ∀ e ∈ cl, ¬ e.1 = -1 := by
    intro e he h1
    refine hclash (cellOf e.2) (freeC e he) ?_
    rw [← calc_index_eq_cellIndex, ← keyC e he]
    exact h1
  unfold GraphSearch.calc_final_path at hfp
  rcases hchainng with ⟨hpind, hcell, hcost⟩ |
    ⟨i, hilt, pe, hget, hkey, m, hm, hcellr, hcostr⟩
  · -- goal node is the start node: single-waypoint path
    rw [hpind] at hfp
    have hev : finalPathLoop gs cl (cl.length + 1) (-1)
        [gs.calc_position ng.x gs.minx] [gs.calc_position ng.y gs.miny] =
        some (.ok ([gs.calc_position ng.x gs.minx], [gs.calc_position ng.y gs.miny])) := by
      simp [finalPathLoop]
    rw [hev] at hfp
    have h2 : (([gs.calc_position ng.x gs.minx], [gs.calc_position ng.y gs.miny]) :
        List ℚ × List ℚ) = (rx, ry) := Except.ok.inj (Option.some.inj hfp)
    have hrx : [gs.calc_position ng.x gs.minx] = rx := congrArg Prod.fst h2
    have hry : [gs.calc_position ng.y gs.miny] = ry := congrArg Prod.snd h2
    refine ⟨[], hstart, ?_, ?_, ?_, ?_⟩
    · rw [pathEnd_nil, ← hcell, hgoalcell]
    · rw [← hrx]
      simp only [pathCells, List.reverse_singleton, List.map_cons, List.map_nil]
      have : (cellOf (startNode gs sx sy)).1 = ng.x := by
        rw [← hcell]
        rfl
      rw [this]
    · rw [← hry]
      simp only [pathCells, List.reverse_singleton, List.map_cons, List.map_nil]
      have : (cellOf (startNode gs sx sy)).2 = ng.y := by
        rw [← hcell]
        rfl
      rw [this]
    · intro ms2 hv2 hend2
      rw [pathCost_nil]
      have := hopt ms2 hv2 (by rw [hgoalcell]; exact hend2)
      rw [hcost] at this
      exact this
  · -- goal node has a closed parent: reconstruct through the closed set
    obtain ⟨cs, ms2, hres, hvalid, hdisj⟩ :=
      finalPathLoop_chain hndC hstart freeC chainC hclash2 cl.length ng.pind
        (Or.inr ⟨i, hilt, pe, hget, hkey⟩) (cl.length + 1) (by omega)
        [gs.calc_position ng.x gs.minx] [gs.calc_position ng.y gs.miny]
    rw [hres] at hfp
    have h2 := Except.ok.inj (Option.some.inj hfp)
    have hrx : [gs.calc_position ng.x gs.minx] ++
        cs.map (fun c => gs.calc_position c.1 gs.minx) = rx := congrArg Prod.fst h2
    have hry : [gs.calc_position ng.y gs.miny] ++
        cs.map (fun c => gs.calc_position c.2 gs.miny) = ry := congrArg Prod.snd h2
    have hpene : ¬ ng.pind = -1 := by
      rw [← hkey]
      exact hclash2 pe (List.get?_mem hget)
    rcases hdisj with ⟨hbad, _, _⟩ | ⟨v, hlkv, hend2, hcost2, hcs⟩
    · exact absurd hbad hpene
    · have hvval : v = pe.2 := by
        have hl2 : alistLookup cl ng.pind = some pe.2 := by
          refine alistLookup_of_mem hndC ?_
          rw [← hkey]
          simpa using List.get?_mem hget
        rw [hl2] at hlkv
        exact (Option.some.inj hlkv).symm
      subst hvval
      have hfree2 : FreeCell gs (applyMove
          (pathEnd (cellOf (startNode gs sx sy)) ms2) m) := by
        rw [hend2, ← hcellr]
        exact hfreeng
      have hendfull : pathEnd (cellOf (startNode gs sx sy)) (ms2 ++ [m]) = cellOf ng := by
        rw [pathEnd_append_one, hend2, ← hcellr]
      have hcostfull : pathCost (ms2 ++ [m]) = ng.cost := by
        rw [pathCost_append, hcost2, hcostr]
        simp [pathCost]
      refine ⟨ms2 ++ [m], validPath_append_one hvalid hm hfree2, ?_, ?_, ?_, ?_⟩
      · rw [hendfull, hgoalcell]
      · rw [← hrx, pathCells_append_one, List.reverse_append, hcs]
        simp only [List.reverse_cons, List.reverse_nil, List.nil_append,
          List.singleton_append, List.map_cons]
        rw [hend2, ← hcellr]
        have : (cellOf ng).1 = ng.x := rfl
        rw [this]
      · rw [← hry, pathCells_append_one, List.reverse_append, hcs]
        simp only [List.reverse_cons, List.reverse_nil, List.nil_append,
          List.singleton_append, List.map_cons]
        rw [hend2, ← hcellr]
        have : (cellOf ng).2 = ng.y := rfl
        rw [this]
      · intro ms3 hv3 hend3
        rw [hcostfull]
        exact hopt ms3 hv3 (by rw [hgoalcell]; exact hend3)

/-- When the bounding-box minima are non-positive, no free cell's linear id
can collide with the parent sentinel -1 (the id is then non-negative). -/
theorem no_sentinel_clash {gs : GraphSearch} (hreso : 0 < gs.reso)
    (hdims : ObmapDims gs) (hminx : gs.minx ≤ 0) (hminy : gs.miny ≤ 0) :
    ∀ c : ℤ × ℤ, FreeCell gs c → ¬ cellIndex gs c = -1 := by
  intro c hc h
  obtain ⟨hx0, hxw, hy0, _, _⟩ := freeCell_bounds hreso hdims hc
  unfold cellIndex at h
  have h1 : (0 : ℤ) ≤ (c.2 - gs.miny) * gs.xwidth :=
    mul_nonneg (by omega) (by omega)
  omega

theorem pathCells_reverse_head (s : ℤ × ℤ) (ms : List (ℤ × ℤ × Cost)) :
    ((pathCells s ms).reverse).head? = some (pathEnd s ms) := by
  induction ms generalizing s with
  | nil => rfl
  | cons m ms ih =>
    have h := ih (applyMove s m)
    show ((s :: pathCells (applyMove s m) ms).reverse).head? =
      some (pathEnd (applyMove s m) ms)
    rw [List.reverse_cons]
    cases hrev : (pathCells (applyMove s m) ms).reverse with
    | nil =>
      rw [hrev] at h
      exact absurd h (by simp)
    | cons x xs =>
      rw [hrev] at h
      simpa using h

/-! ### Claim theorems -/

/-- C7: planning is a pure function of its inputs (two runs on the same
input yield identical output, path and expansion log included), and the
frontier selection is deterministic first-inserted-wins: the selected entry
splits the insertion-ordered frontier with all earlier entries strictly more
expensive and all later ones no cheaper. -/
theorem C7_deterministic_first_min :
    (∀ (gs : GraphSearch) (sx sy gx gy : ℚ) (fuel : ℕ)
        (r1 r2 : Option (Except PlanExc (List ℚ × List ℚ × List (ℚ × ℚ)))),
      gs.planning sx sy gx gy fuel = r1 → gs.planning sx sy gx gy fuel = r2 → r1 = r2) ∧
    (∀ (l : List (ℤ × Node)) (e : ℤ × Node), selectMin l = some e →
      ∃ l1 l2, l = l1 ++ e :: l2 ∧ (∀ x ∈ l1, e.2.cost < x.2.cost) ∧
        (∀ x ∈ l2, e.2.cost ≤ x.2.cost)) := by
  constructor
  · intro gs sx sy gx gy fuel r1 r2 h1 h2
    rw [← h1, ← h2]
  · intro l e h
    exact selectMin_split h

/-- Witness for C7: a frontier with a cost tie ([2, 1, 1]) selects the
earliest-inserted minimum (key 1), and a concrete planning call equals
itself. -/
theorem C7_witness :
    (demoGrid.planning 1 1 2 1 50 = demoGrid.planning 1 1 2 1 50) ∧
    (∃ l1 l2,
      ([(0, ⟨0, 0, 2, -1⟩), (1, ⟨1, 0, 1, -1⟩), (2, ⟨2, 0, 1, -1⟩)] : List (ℤ × Node)) =
        l1 ++ ((1 : ℤ), (⟨1, 0, 1, -1⟩ : Node)) :: l2 ∧
      (∀ x ∈ l1, (⟨1, 0, 1, -1⟩ : Node).cost < x.2.cost) ∧
      (∀ x ∈ l2, (⟨1, 0, 1, -1⟩ : Node).cost ≤ x.2.cost)) :=
  ⟨C7_deterministic_first_min.1 demoGrid 1 1 2 1 50 _ _ rfl rfl,
    C7_deterministic_first_min.2
      [(0, ⟨0, 0, 2, -1⟩), (1, ⟨1, 0, 1, -1⟩), (2, ⟨2, 0, 1, -1⟩)]
      ((1 : ℤ), (⟨1, 0, 1, -1⟩ : Node)) (by decide)⟩

/-- C8: the key discipline of the search loop: it holds initially, one loop
iteration preserves it while closed keys only grow and never re-enter the
frontier, and the expanded (popped) key is never one already closed. -/
theorem C8_open_closed_discipline :
    (∀ (gs : GraphSearch) (sx sy : ℚ), KeysInv (initState gs sx sy)) ∧
    (∀ (gs : GraphSearch) (ngoal : Node) (st st2 : LoopState),
      KeysInv st → stepLoop gs ngoal st = .next st2 →
      KeysInv st2 ∧
      (∀ k ∈ st.closedset.map (fun e => e.1), k ∈ st2.closedset.map (fun e => e.1)) ∧
      (∀ k ∈ st.closedset.map (fun e => e.1), k ∉ st2.openset.map (fun e => e.1))) ∧
    (∀ (gs : GraphSearch) (st : LoopState) (c_id : ℤ) (cur : Node),
      KeysInv st → selectMin st.openset = some (c_id, cur) →
      c_id ∉ st.closedset.map (fun e => e.1)) := by
  refine ⟨keysInv_init, fun gs ngoal st st2 hinv h => stepLoop_keysInv hinv h, ?_⟩
  intro gs st c_id cur hinv hsel
  exact hinv.2.2 c_id (List.mem_map.2 ⟨(c_id, cur), selectMin_mem hsel, rfl⟩)

set_option maxRecDepth 40000 in
unseal Rat.add Rat.mul Rat.inv Rat.sub in
/-- Witness for C8 at a concrete grid: the initial state of a `demoGrid`
query, one concrete loop iteration from it, and the popped key 11. -/
theorem C8_witness :
    KeysInv (initState demoGrid 1 1) ∧
    (KeysInv ⟨[(12, ⟨2, 1, 1, 11⟩), (21, ⟨1, 2, 1, 11⟩), (10, ⟨0, 1, 1, 11⟩),
        (1, ⟨1, 0, 1, 11⟩), (20, ⟨0, 2, sqrt2, 11⟩), (2, ⟨2, 0, sqrt2, 11⟩),
        (22, ⟨2, 2, sqrt2, 11⟩)],
        [(11, ⟨1, 1, 0, -1⟩)], [(1, 1)]⟩ ∧
      (∀ k ∈ (initState demoGrid 1 1).closedset.map (fun e => e.1),
        k ∈ ([(11, (⟨1, 1, 0, -1⟩ : Node))].map (fun e => e.1))) ∧
      (∀ k ∈ (initState demoGrid 1 1).closedset.map (fun e => e.1),
        k ∉ ([(12, ⟨2, 1, 1, 11⟩), (21, ⟨1, 2, 1, 11⟩), (10, ⟨0, 1, 1, 11⟩),
          (1, ⟨1, 0, 1, 11⟩), (20, ⟨0, 2, sqrt2, 11⟩), (2, ⟨2, 0, sqrt2, 11⟩),
          (22, (⟨2, 2, sqrt2, 11⟩ : Node))].map (fun e => e.1)))) ∧
    ((11 : ℤ) ∉ (initState demoGrid 1 1).closedset.map (fun e => e.1)) :=
  ⟨C8_open_closed_discipline.1 demoGrid 1 1,
    C8_open_closed_discipline.2.1 demoGrid (startNode demoGrid 9 9) (initState demoGrid 1 1)
      ⟨[(12, ⟨2, 1, 1, 11⟩), (21, ⟨1, 2, 1, 11⟩), (10, ⟨0, 1, 1, 11⟩),
        (1, ⟨1, 0, 1, 11⟩), (20, ⟨0, 2, sqrt2, 11⟩), (2, ⟨2, 0, sqrt2, 11⟩),
        (22, ⟨2, 2, sqrt2, 11⟩)],
        [(11, ⟨1, 1, 0, -1⟩)], [(1, 1)]⟩
      (by decide) (by decide),
    C8_open_closed_discipline.2.2 demoGrid (initState demoGrid 1 1) 11 ⟨1, 1, 0, -1⟩
      (by decide) (by decide)⟩

/-- C5: a cell of the constructed obstacle map is marked occupied if and only
if the Euclidean distance from its continuous center to at least one obstacle
point is at most the robot radius. -/
theorem C5_occupied_iff_within_radius (ox oy : List ℚ) (reso rr : ℚ) {ix iy : ℤ}
    (hix : 0 ≤ ix) (hx : ix < (mkGraphSearch ox oy reso rr).xwidth)
    (hiy : 0 ≤ iy) (hy : iy < (mkGraphSearch ox oy reso rr).ywidth) :
    obmapAt (mkGraphSearch ox oy reso rr) (ix, iy) = true ↔
      ∃ p ∈ ox.zip oy,
        Real.sqrt
            (((p.1 : ℝ) -
                (((mkGraphSearch ox oy reso rr).calc_position ix
                  (mkGraphSearch ox oy reso rr).minx : ℚ) : ℝ)) ^ 2 +
              ((p.2 : ℝ) -
                (((mkGraphSearch ox oy reso rr).calc_position iy
                  (mkGraphSearch ox oy reso rr).miny : ℚ) : ℝ)) ^ 2) ≤ (rr : ℝ) := by
  rw [mk_obmapAt ox oy reso rr hix hx hiy hy, List.any_eq_true]
  exact exists_congr fun p => and_congr_right fun _ => occTest_iff_sqrt rr _ _ p

set_option maxRecDepth 40000 in
unseal Rat.add Rat.mul Rat.inv Rat.sub in
/-- Witness for C5 at a concrete grid and cell: cell (0,0) of `demoGrid` is
occupied because the obstacle (0,0) is at distance 0 of its center. -/
theorem C5_witness :
    ((0 : ℤ) ≤ (0 : ℤ) ∧ (0 : ℤ) < demoGrid.xwidth ∧
      (0 : ℤ) ≤ (0 : ℤ) ∧ (0 : ℤ) < demoGrid.ywidth) ∧
    (obmapAt demoGrid ((0 : ℤ), (0 : ℤ)) = true ↔
      ∃ p ∈ ([0, 10] : List ℚ).zip ([0, 10] : List ℚ),
        Real.sqrt
            (((p.1 : ℝ) - ((demoGrid.calc_position 0 demoGrid.minx : ℚ) : ℝ)) ^ 2 +
              ((p.2 : ℝ) - ((demoGrid.calc_position 0 demoGrid.miny : ℚ) : ℝ)) ^ 2) ≤
          ((1 / 2 : ℚ) : ℝ)) :=
  ⟨⟨by decide, by decide, by decide, by decide⟩,
    C5_occupied_iff_within_radius [0, 10] [0, 10] 1 (1 / 2)
      (by decide) (by decide) (by decide) (by decide)⟩

/-- C6 (amended): the constructed grid widths are the Python `round`
(half-to-even) of span over resolution, never exceeding the ceiling that the
claim states. -/
theorem C6_widths_are_rounded (ox oy : List ℚ) (reso rr : ℚ) :
    (mkGraphSearch ox oy reso rr).xwidth =
      pyround ((((mkGraphSearch ox oy reso rr).maxx : ℚ) -
        ((mkGraphSearch ox oy reso rr).minx : ℚ)) / reso) ∧
    (mkGraphSearch ox oy reso rr).ywidth =
      pyround ((((mkGraphSearch ox oy reso rr).maxy : ℚ) -
        ((mkGraphSearch ox oy reso rr).miny : ℚ)) / reso) ∧
    (mkGraphSearch ox oy reso rr).xwidth ≤
      ⌈(((mkGraphSearch ox oy reso rr).maxx : ℚ) -
        ((mkGraphSearch ox oy reso rr).minx : ℚ)) / reso⌉ ∧
    (mkGraphSearch ox oy reso rr).ywidth ≤
      ⌈(((mkGraphSearch ox oy reso rr).maxy : ℚ) -
        ((mkGraphSearch ox oy reso rr).miny : ℚ)) / reso⌉ :=
  ⟨rfl, rfl, pyround_le_ceil _, pyround_le_ceil _⟩

set_option maxRecDepth 40000 in
unseal Rat.add Rat.mul Rat.inv Rat.sub in
/-- Counterexample to C6 as stated: obstacles spanning 27 at resolution 5
give width round(5.4) = 5, while the claimed ceil(5.4) is 6. -/
theorem C6_counterexample :
    (mkGraphSearch [2 / 5, 137 / 5] [0, 1] 5 0).xwidth = 5 ∧
    ⌈(((mkGraphSearch [2 / 5, 137 / 5] [0, 1] 5 0).maxx : ℚ) -
        ((mkGraphSearch [2 / 5, 137 / 5] [0, 1] 5 0).minx : ℚ)) / 5⌉ = 6 := by
  constructor
  · decide
  · decide

/-- C10 (amended): provided the rounded widths cover the bounding-box spans,
a node passing the positional guards has in-range indices and the occupancy
lookup cannot fault. -/
theorem C10_lookup_in_bounds (ox oy : List ℚ) (reso rr : ℚ) (hreso : 0 < reso)
    (hsx : (((mkGraphSearch ox oy reso rr).maxx : ℚ) -
        ((mkGraphSearch ox oy reso rr).minx : ℚ)) ≤
      ((mkGraphSearch ox oy reso rr).xwidth : ℚ) * reso)
    (hsy : (((mkGraphSearch ox oy reso rr).maxy : ℚ) -
        ((mkGraphSearch ox oy reso rr).miny : ℚ)) ≤
      ((mkGraphSearch ox oy reso rr).ywidth : ℚ) * reso)
    (node : Node) (h : PosChecksPass (mkGraphSearch ox oy reso rr) node) :
    (0 ≤ node.x ∧ node.x < (mkGraphSearch ox oy reso rr).xwidth ∧
      0 ≤ node.y ∧ node.y < (mkGraphSearch ox oy reso rr).ywidth) ∧
    ∃ b, (mkGraphSearch ox oy reso rr).verify_node node = .ok b := by
  set gs := mkGraphSearch ox oy reso rr with hgs
  have hb := @posChecks_bounds gs hreso hsx hsy node h
  obtain ⟨hx0, hxw, hy0, hyw⟩ := hb
  refine ⟨⟨hx0, hxw, hy0, hyw⟩, ?_⟩
  rw [verify_node_of_checks h]
  have hd : ObmapDims gs := mk_dims ox oy reso rr
  have hxl : node.x.toNat < gs.obmap.length := by
    rw [hd.1]
    omega
  rw [pyIndex_of_nonneg _ hx0, List.get?_eq_get hxl]
  have hrl : (gs.obmap.get ⟨node.x.toNat, hxl⟩).length = gs.ywidth.toNat :=
    hd.2 _ (gs.obmap.get_mem _ _)
  have hyl : node.y.toNat < (gs.obmap.get ⟨node.x.toNat, hxl⟩).length := by
    rw [hrl]
    omega
  dsimp only
  rw [pyIndex_of_nonneg _ hy0, List.get?_eq_get hyl]
  dsimp only
  refine ⟨!((gs.obmap.get ⟨node.x.toNat, hxl⟩).get ⟨node.y.toNat, hyl⟩), ?_⟩
  cases hocc : (gs.obmap.get ⟨node.x.toNat, hxl⟩).get ⟨node.y.toNat, hyl⟩ <;>
    simp [hocc]

set_option maxRecDepth 40000 in
unseal Rat.add Rat.mul Rat.inv Rat.sub in
/-- Counterexample to C10 as stated: on `skewGrid` the node (2,0) passes all
positional guards yet its x index is not below `xwidth`, and the occupancy
lookup raises `IndexError`. -/
theorem C10_counterexample :
    PosChecksPass skewGrid ⟨2, 0, 0, -1⟩ ∧
    ¬ ((2 : ℤ) < skewGrid.xwidth) ∧
    skewGrid.verify_node ⟨2, 0, 0, -1⟩ = .error .indexError := by
  refine ⟨by decide, by decide, by decide⟩

set_option maxRecDepth 40000 in
unseal Rat.add Rat.mul Rat.inv Rat.sub in
/-- Witness for C10 (amended) at a concrete grid and node. -/
theorem C10_witness :
    ((0 : ℚ) < 1 ∧
      ((demoGrid.maxx : ℚ) - (demoGrid.minx : ℚ)) ≤ (demoGrid.xwidth : ℚ) * 1 ∧
      ((demoGrid.maxy : ℚ) - (demoGrid.miny : ℚ)) ≤ (demoGrid.ywidth : ℚ) * 1 ∧
      PosChecksPass demoGrid ⟨2, 3, 0, -1⟩) ∧
    ((0 ≤ (⟨2, 3, 0, -1⟩ : Node).x ∧ (⟨2, 3, 0, -1⟩ : Node).x < demoGrid.xwidth ∧
        0 ≤ (⟨2, 3, 0, -1⟩ : Node).y ∧ (⟨2, 3, 0, -1⟩ : Node).y < demoGrid.ywidth) ∧
      ∃ b, demoGrid.verify_node ⟨2, 3, 0, -1⟩ = .ok b) :=
  ⟨⟨by decide, by decide, by decide, by decide⟩,
    C10_lookup_in_bounds [0, 10] [0, 10] 1 (1 / 2) (by decide) (by decide) (by decide)
      ⟨2, 3, 0, -1⟩ (by decide)⟩

set_option maxRecDepth 40000 in
unseal Rat.add Rat.mul Rat.inv Rat.sub in
/-- C3: on a query whose goal is walled off (start (2,2) of `ringGrid` has
all eight neighbours occupied, goal cell (0,1) is free), the search loop
exhausts the frontier and the code raises `ValueError` from `min` over the
empty open set instead of returning a typed Unreachable value. -/
theorem C3_unreachable_raises_valueError :
    FreeCell ringGrid (2, 2) ∧ FreeCell ringGrid (0, 1) ∧
    (∀ m ∈ motionModel, ¬ FreeCell ringGrid (applyMove (2, 2) m)) ∧
    ringGrid.planning 2 2 0 1 50 = some (.error .valueError) := by
  refine ⟨by decide, by decide, by decide, by decide⟩

set_option maxRecDepth 40000 in
unseal Rat.add Rat.mul Rat.inv Rat.sub in
/-- C4: planning performs no eager validation: the start coordinate (1,1)
maps to an occupied cell, yet `planning` enters its search loop and returns a
path instead of failing with a typed InvalidQuery. -/
theorem C4_no_eager_validation :
    ¬ FreeCell ringGrid (1, 1) ∧
    ringGrid.calc_xyindex 1 ringGrid.minx = 1 ∧
    ringGrid.calc_xyindex 1 ringGrid.miny = 1 ∧
    ringGrid.planning 1 1 1 1 50 = some (.ok ([1], [1], [(1, 1)])) := by
  refine ⟨by decide, by decide, by decide, by decide⟩

/-- C1 (amended): on a well-formed grid (positive resolution, rectangular
obstacle map, no free cell's linear id colliding with the parent sentinel
-1), whenever the start maps to a free cell and planning succeeds, the
returned waypoint lists are exactly the reversed cell positions of a valid
8-connected obstacle-free path from the start cell to the goal cell whose
total cost (1 per axis step, sqrt 2 per diagonal step) is minimal among all
such paths. -/
theorem C1_dijkstra_optimal {gs : GraphSearch} (hreso : 0 < gs.reso)
    (hdims : ObmapDims gs) {sx sy gx gy : ℚ} {fuel : ℕ}
    {rx ry : List ℚ} {ex : List (ℚ × ℚ)}
    (hstart : FreeCell gs (cellOf (startNode gs sx sy)))
    (_hgoal : FreeCell gs (cellOf (startNode gs gx gy)))
    (hclash : ∀ c : ℤ × ℤ, FreeCell gs c → ¬ cellIndex gs c = -1)
    (hsucc : gs.planning sx sy gx gy fuel = some (.ok (rx, ry, ex))) :
    ∃ ms : List (ℤ × ℤ × Cost),
      ValidPath gs (cellOf (startNode gs sx sy)) ms ∧
      pathEnd (cellOf (startNode gs sx sy)) ms = cellOf (startNode gs gx gy) ∧
      rx = ((pathCells (cellOf (startNode gs sx sy)) ms).reverse).map
        (fun c => gs.calc_position c.1 gs.minx) ∧
      ry = ((pathCells (cellOf (startNode gs sx sy)) ms).reverse).map
        (fun c => gs.calc_position c.2 gs.miny) ∧
      (∀ ms2, ValidPath gs (cellOf (startNode gs sx sy)) ms2 →
        pathEnd (cellOf (startNode gs sx sy)) ms2 = cellOf (startNode gs gx gy) →
        pathCost ms ≤ pathCost ms2) :=
  planning_success_spec hreso hdims hstart hclash hsucc

set_option maxRecDepth 40000 in
unseal Rat.add Rat.mul Rat.inv Rat.sub in
/-- Counterexample to C1 as stated: on `skewGrid` the start (0,0) and goal
(2,2) map to free cells joined by a one-step diagonal path, yet planning
raises IndexError instead of returning an optimal path. -/
theorem C1_counterexample :
    FreeCell skewGrid (cellOf (startNode skewGrid 0 0)) ∧
    FreeCell skewGrid (cellOf (startNode skewGrid 2 2)) ∧
    ValidPath skewGrid (cellOf (startNode skewGrid 0 0)) [(1, 1, sqrt2)] ∧
    pathEnd (cellOf (startNode skewGrid 0 0)) [(1, 1, sqrt2)] =
      cellOf (startNode skewGrid 2 2) ∧
    skewGrid.planning 0 0 2 2 50 = some (.error .indexError) := by
  refine ⟨by decide, by decide, by decide, by decide, by decide⟩

set_option maxRecDepth 40000 in
unseal Rat.add Rat.mul Rat.inv Rat.sub in
/-- Witness for C1 (amended) at a concrete grid: the run from (0,1) to
(0,3) on `ringGrid` succeeds and its waypoints realize a cost-minimal path. -/
theorem C1_witness :
    ((0 : ℚ) < ringGrid.reso ∧
      FreeCell ringGrid (cellOf (startNode ringGrid 0 1)) ∧
      FreeCell ringGrid (cellOf (startNode ringGrid 0 3)) ∧
      ringGrid.planning 0 1 0 3 20 =
        some (.ok ([0, 0, 0], [3, 2, 1], [(0, 1), (0, 2), (1, 0), (0, 3)]))) ∧
    (∃ ms : List (ℤ × ℤ × Cost),
      ValidPath ringGrid (cellOf (startNode ringGrid 0 1)) ms ∧
      pathEnd (cellOf (startNode ringGrid 0 1)) ms =
        cellOf (startNode ringGrid 0 3) ∧
      ([0, 0, 0] : List ℚ) =
        ((pathCells (cellOf (startNode ringGrid 0 1)) ms).reverse).map
          (fun c => ringGrid.calc_position c.1 ringGrid.minx) ∧
      ([3, 2, 1] : List ℚ) =
        ((pathCells (cellOf (startNode ringGrid 0 1)) ms).reverse).map
          (fun c => ringGrid.calc_position c.2 ringGrid.miny) ∧
      (∀ ms2, ValidPath ringGrid (cellOf (startNode ringGrid 0 1)) ms2 →
        pathEnd (cellOf (startNode ringGrid 0 1)) ms2 =
          cellOf (startNode ringGrid 0 3) →
        pathCost ms ≤ pathCost ms2)) :=
  ⟨⟨by decide, by decide, by decide, by decide⟩,
    @C1_dijkstra_optimal ringGrid (by decide)
      (mk_dims [0, 4, 1, 1, 1, 2, 2, 3, 3, 3] [0, 4, 1, 2, 3, 1, 3, 1, 2, 3] 1 0)
      0 1 0 3 20 [0, 0, 0] [3, 2, 1] [(0, 1), (0, 2), (1, 0), (0, 3)]
      (by decide) (by decide)
      (no_sentinel_clash (by decide)
        (mk_dims [0, 4, 1, 1, 1, 2, 2, 3, 3, 3] [0, 4, 1, 2, 3, 1, 3, 1, 2, 3] 1 0)
        (by decide) (by decide))
      (by decide)⟩

/-- C2 (amended): for a successful planning run on a well-formed grid, the
returned waypoint lists run GOAL to START: the first waypoint is the goal
cell's continuous position and the last waypoint is the start cell's
continuous position (the code builds the path goal-to-start and never
reverses it). -/
theorem C2_waypoints_goal_to_start {gs : GraphSearch} (hreso : 0 < gs.reso)
    (hdims : ObmapDims gs) {sx sy gx gy : ℚ} {fuel : ℕ}
    {rx ry : List ℚ} {ex : List (ℚ × ℚ)}
    (hstart : FreeCell gs (cellOf (startNode gs sx sy)))
    (hclash : ∀ c : ℤ × ℤ, FreeCell gs c → ¬ cellIndex gs c = -1)
    (hsucc : gs.planning sx sy gx gy fuel = some (.ok (rx, ry, ex))) :
    rx.head? = some (gs.calc_position (startNode gs gx gy).x gs.minx) ∧
    ry.head? = some (gs.calc_position (startNode gs gx gy).y gs.miny) ∧
    rx.getLast? = some (gs.calc_position (startNode gs sx sy).x gs.minx) ∧
    ry.getLast? = some (gs.calc_position (startNode gs sx sy).y gs.miny) := by
  obtain ⟨ms, hv, hend, hrx, hry, _⟩ :=
    planning_success_spec hreso hdims hstart hclash hsucc
  subst hrx hry
  refine ⟨?_, ?_, ?_, ?_⟩
  · rw [List.head?_map, pathCells_reverse_head, hend]
    rfl
  · rw [List.head?_map, pathCells_reverse_head, hend]
    rfl
  · rw [List.map_reverse, List.getLast?_reverse, List.head?_map, pathCells_head]
    rfl
  · rw [List.map_reverse, List.getLast?_reverse, List.head?_map, pathCells_head]
    rfl

set_option maxRecDepth 40000 in
unseal Rat.add Rat.mul Rat.inv Rat.sub in
/-- Counterexample to C2 as stated: a successful run whose FIRST returned
waypoint is the goal position, not the start position. -/
theorem C2_counterexample :
    ringGrid.planning 0 1 0 3 20 =
      some (.ok ([0, 0, 0], [3, 2, 1], [(0, 1), (0, 2), (1, 0), (0, 3)])) ∧
    ([3, 2, 1] : List ℚ).head? =
      some (ringGrid.calc_position (startNode ringGrid 0 3).y ringGrid.miny) ∧
    ¬ ([3, 2, 1] : List ℚ).head? =
      some (ringGrid.calc_position (startNode ringGrid 0 1).y ringGrid.miny) := by
  refine ⟨by decide, by decide, by decide⟩

set_option maxRecDepth 40000 in
unseal Rat.add Rat.mul Rat.inv Rat.sub in
/-- Witness for C2 (amended) at a concrete grid: the run from (0,1) to
(0,3) on `ringGrid` returns waypoints heading at the goal (0,3) and ending
at the start (0,1). -/
theorem C2_witness :
    ((0 : ℚ) < ringGrid.reso ∧
      FreeCell ringGrid (cellOf (startNode ringGrid 0 1)) ∧
      ringGrid.planning 0 1 0 3 20 =
        some (.ok ([0, 0, 0], [3, 2, 1], [(0, 1), (0, 2), (1, 0), (0, 3)]))) ∧
    (([0, 0, 0] : List ℚ).head? =
        some (ringGrid.calc_position (startNode ringGrid 0 3).x ringGrid.minx) ∧
      ([3, 2, 1] : List ℚ).head? =
        some (ringGrid.calc_position (startNode ringGrid 0 3).y ringGrid.miny) ∧
      ([0, 0, 0] : List ℚ).getLast? =
        some (ringGrid.calc_position (startNode ringGrid 0 1).x ringGrid.minx) ∧
      ([3, 2, 1] : List ℚ).getLast? =
        some (ringGrid.calc_position (startNode ringGrid 0 1).y ringGrid.miny)) :=
  ⟨⟨by decide, by decide, by decide⟩,
    @C2_waypoints_goal_to_start ringGrid (by decide)
      (mk_dims [0, 4, 1, 1, 1, 2, 2, 3, 3, 3] [0, 4, 1, 2, 3, 1, 3, 1, 2, 3] 1 0)
      0 1 0 3 20 [0, 0, 0] [3, 2, 1] [(0, 1), (0, 2), (1, 0), (0, 3)]
      (by decide)
      (no_sentinel_clash (by decide)
        (mk_dims [0, 4, 1, 1, 1, 2, 2, 3, 3, 3] [0, 4, 1, 2, 3, 1, 3, 1, 2, 3] 1 0)
        (by decide) (by decide))
      (by decide)⟩

/-- C9: every waypoint of a successful planning run from a free start cell
on a well-formed grid is the continuous position of a grid cell that is in
bounds and unoccupied in the obstacle map. -/
theorem C9_waypoints_in_bounds_free {gs : GraphSearch} (hreso : 0 < gs.reso)
    (hdims : ObmapDims gs) {sx sy gx gy : ℚ} {fuel : ℕ}
    {rx ry : List ℚ} {ex : List (ℚ × ℚ)}
    (hstart : FreeCell gs (cellOf (startNode gs sx sy)))
    (_hgoal : FreeCell gs (cellOf (startNode gs gx gy)))
    (hsucc : gs.planning sx sy gx gy fuel = some (.ok (rx, ry, ex))) :
    ∃ cells : List (ℤ × ℤ),
      rx = cells.map (fun c => gs.calc_position c.1 gs.minx) ∧
      ry = cells.map (fun c => gs.calc_position c.2 gs.miny) ∧
      ∀ c ∈ cells, 0 ≤ c.1 ∧ c.1 < gs.xwidth ∧ 0 ≤ c.2 ∧ c.2 < gs.ywidth ∧
        obmapAt gs c = false := by
  obtain ⟨ng, cl, hsl, hfp⟩ := planning_ok_inv hsucc
  have inv0 := loopInv_init sx sy hstart
  obtain ⟨⟨hndC, keyC, freeC, chainC⟩, hchainng, hcellng, hfreeng, hopt⟩ :=
    searchLoop_ok_facts hreso hdims hstart fuel _ ng cl ex inv0 hsl
  have hchainW : ∀ j pe, cl.get? j = some pe → (pe.2.pind = -1 ∨
      ∃ i, i < j ∧ ∃ pe2, cl.get? i = some pe2 ∧ pe2.1 = pe.2.pind) := by
    intro j pe hj
    rcases chainC j pe hj with ⟨h1, _, _⟩ | ⟨i, hi, pe2, hget, hkey, _⟩
    · exact Or.inl h1
    · exact Or.inr ⟨i, hi, pe2, hget, hkey⟩
  have hpg : ng.pind = -1 ∨ ∃ i, i < cl.length ∧ ∃ pe, cl.get? i = some pe ∧
      pe.1 = ng.pind := by
    rcases hchainng with ⟨h1, _, _⟩ | ⟨i, hi, pe, hget, hkey, _⟩
    · exact Or.inl h1
    · exact Or.inr ⟨i, hi, pe, hget, hkey⟩
  obtain ⟨cs, hres, hcs⟩ := finalPathLoop_cells hndC hchainW cl.length ng.pind hpg
    (cl.length + 1) (by omega) [gs.calc_position ng.x gs.minx]
    [gs.calc_position ng.y gs.miny]
  unfold GraphSearch.calc_final_path at hfp
  rw [hres] at hfp
  have h2 := Except.ok.inj (Option.some.inj hfp)
  have hrx : [gs.calc_position ng.x gs.minx] ++
      cs.map (fun c => gs.calc_position c.1 gs.minx) = rx := congrArg Prod.fst h2
  have hry : [gs.calc_position ng.y gs.miny] ++
      cs.map (fun c => gs.calc_position c.2 gs.miny) = ry := congrArg Prod.snd h2
  refine ⟨cellOf ng :: cs, ?_, ?_, ?_⟩
  · rw [← hrx]
    rfl
  · rw [← hry]
    rfl
  · intro c hc
    rcases List.mem_cons.1 hc with rfl | hc2
    · exact freeCell_bounds hreso hdims hfreeng
    · obtain ⟨e, he, hcell⟩ := hcs c hc2
      rw [← hcell]
      exact freeCell_bounds hreso hdims (freeC e he)

set_option maxRecDepth 40000 in
unseal Rat.add Rat.mul Rat.inv Rat.sub in
/-- Witness for C9 at a concrete grid: the run from (0,1) to (0,3) on
`ringGrid` yields waypoints that are positions of in-bounds unoccupied
cells. -/
theorem C9_witness :
    ((0 : ℚ) < ringGrid.reso ∧
      FreeCell ringGrid (cellOf (startNode ringGrid 0 1)) ∧
      FreeCell ringGrid (cellOf (startNode ringGrid 0 3)) ∧
      ringGrid.planning 0 1 0 3 20 =
        some (.ok ([0, 0, 0], [3, 2, 1], [(0, 1), (0, 2), (1, 0), (0, 3)]))) ∧
    (∃ cells : List (ℤ × ℤ),
      ([0, 0, 0] : List ℚ) =
        cells.map (fun c => ringGrid.calc_position c.1 ringGrid.minx) ∧
      ([3, 2, 1] : List ℚ) =
        cells.map (fun c => ringGrid.calc_position c.2 ringGrid.miny) ∧
      ∀ c ∈ cells, 0 ≤ c.1 ∧ c.1 < ringGrid.xwidth ∧ 0 ≤ c.2 ∧
        c.2 < ringGrid.ywidth ∧ obmapAt ringGrid c = false) :=
  ⟨⟨by decide, by decide, by decide, by decide⟩,
    @C9_waypoints_in_bounds_free ringGrid (by decide)
      (mk_dims [0, 4, 1, 1, 1, 2, 2, 3, 3, 3] [0, 4, 1, 2, 3, 1, 3, 1, 2, 3] 1 0)
      0 1 0 3 20 [0, 0, 0] [3, 2, 1] [(0, 1), (0, 2), (1, 0), (0, 3)]
      (by decide) (by decide) (by decide)⟩

end RSS
